import Mathlib

/-!
Verification development for the ip-scan port scanner.

Shallow embedding of the scanner's pure core:
* `src/model/bitmap.rs` — the sparse per-port IP bitmap and its blob codec,
* `src/model/ip_range.rs` — the IPv4 range iterator and the port-string parser,
* `src/rate_limiter.rs` / `src/service/rate_limiter.rs` — the window rate limiter,
* `src/service/syn_scanner.rs` (Linux L4 receiver) — the SYN-ACK outcome filter,
* `src/main.rs` (`run_scanner_logic`) — the resume-cursor start-IP selection,
* `src/dao/sqlite_db.rs` — the SQLite tables as a state machine over batched writes.

Machine integers are modelled as `Nat` with explicit bounds; fallible Rust code
returns `Option`/`Except`; the SQLite tables are modelled as partial maps and
each write method as a pure state transformer.
-/

set_option maxRecDepth 8192

namespace IpScan

/-! ### PortBitmap (src/model/bitmap.rs) -/

/-- `SEGMENT_SIZE` from `src/model/bitmap.rs`: 2 MiB per segment (2^24 bits). -/
def SEGMENT_SIZE : Nat := 2 * 1024 * 1024

/-- Population count of one byte, modelling `u8::count_ones`. -/
def popcount : Nat → Nat
  | 0 => 0
  | n + 1 => popcount ((n + 1) / 2) + (n + 1) % 2
decreasing_by exact Nat.div_lt_self (Nat.succ_pos n) Nat.one_lt_two

/-- `PortBitmap`: the `HashMap<u32, Vec<u8>>` of segments is modelled as an
association list from segment id to byte array (bytes are `Nat` values `< 256`).
The association-list order stands in for the hash map's iteration order. -/
structure PortBitmap where
  segments : List (Nat × List Nat)
deriving DecidableEq

/-- `PortBitmap::new`. -/
def PortBitmap.new : PortBitmap := ⟨[]⟩

/-- `PortBitmap::get_segment_and_offset`: high 8 bits / low 24 bits of the index. -/
def getSegmentAndOffset (ipIndex : Nat) : Nat × Nat :=
  (ipIndex >>> 24, ipIndex &&& 0xFFFFFF)

/-- Replace the value stored under key `k` (first occurrence) or append a new
entry, modelling `HashMap::entry(k).or_insert_with(..)` followed by mutation. -/
def updateAssoc {α : Type} (l : List (Nat × α)) (k : Nat) (v : α) :
    List (Nat × α) :=
  match l with
  | [] => [(k, v)]
  | (k', v') :: rest =>
    if k' = k then (k, v) :: rest else (k', v') :: updateAssoc rest k v

/-- `PortBitmap::set`. Out-of-range byte indexes cannot occur because the low
24 bits of the index give a byte index `< SEGMENT_SIZE`; `List.set`/`List.getD`
then agree with Rust's in-bounds `segment[byte_index]` accesses. -/
def PortBitmap.set (b : PortBitmap) (ipIndex : Nat) (value : Bool) : PortBitmap :=
  let sa := getSegmentAndOffset ipIndex
  let seg := (b.segments.lookup sa.1).getD (List.replicate SEGMENT_SIZE 0)
  let byteIndex := sa.2 / 8
  let bitIndex := sa.2 % 8
  let oldByte := seg.getD byteIndex 0
  let newByte :=
    if value then oldByte ||| (1 <<< bitIndex)
    else oldByte &&& (255 ^^^ (1 <<< bitIndex))
  ⟨updateAssoc b.segments sa.1 (seg.set byteIndex newByte)⟩

/-- `PortBitmap::get`. -/
def PortBitmap.get (b : PortBitmap) (ipIndex : Nat) : Bool :=
  let sa := getSegmentAndOffset ipIndex
  match b.segments.lookup sa.1 with
  | some seg => decide ((seg.getD (sa.2 / 8) 0) &&& (1 <<< (sa.2 % 8)) ≠ 0)
  | none => false

/-- `PortBitmap::count_ones`: sum of per-byte population counts over all segments. -/
def PortBitmap.count_ones (b : PortBitmap) : Nat :=
  (b.segments.map (fun e => (e.2.map popcount).sum)).sum

/-! ### Bitmap blob codec (bincode of `HashMap<u32, Vec<u8>>`)

bincode v1 default options: fixed-width little-endian integers.  A map is a
`u64` entry count followed by the entries; each entry is the `u32` key and the
`Vec<u8>` value, itself a `u64` length followed by the raw bytes. -/

/-- Little-endian encoding of `n` on `k` bytes. -/
def encLE : Nat → Nat → List Nat
  | 0, _ => []
  | k + 1, n => n % 256 :: encLE k (n / 256)

/-- Little-endian decoding of `k` bytes from the front of `l`. -/
def decLE : Nat → List Nat → Option (Nat × List Nat)
  | 0, l => some (0, l)
  | _ + 1, [] => none
  | k + 1, b :: l =>
    match decLE k l with
    | some (n, rest) => some (b + 256 * n, rest)
    | none => none

/-- Read `n` raw bytes from the front of `l`. -/
def readBytes (n : Nat) (l : List Nat) : Option (List Nat × List Nat) :=
  if n ≤ l.length then some (l.take n, l.drop n) else none

/-- Decode `k` map entries. -/
def decEntries : Nat → List Nat → Option (List (Nat × List Nat) × List Nat)
  | 0, l => some ([], l)
  | k + 1, l =>
    match decLE 4 l with
    | none => none
    | some (key, l1) =>
      match decLE 8 l1 with
      | none => none
      | some (len, l2) =>
        match readBytes len l2 with
        | none => none
        | some (bytes, l3) =>
          match decEntries k l3 with
          | none => none
          | some (rest, l4) => some ((key, bytes) :: rest, l4)

/-- Encoding of a single map entry. -/
def encEntry (e : Nat × List Nat) : List Nat :=
  encLE 4 e.1 ++ encLE 8 e.2.length ++ e.2

/-- `PortBitmap::to_blob`: `bincode::serialize(&self.segments)`. -/
def PortBitmap.to_blob (b : PortBitmap) : List Nat :=
  encLE 8 b.segments.length ++ (b.segments.map encEntry).flatten

/-- `PortBitmap::from_blob`: `bincode::deserialize(data)`; `none` models `Err`. -/
def PortBitmap.from_blob (data : List Nat) : Option PortBitmap :=
  match decLE 8 data with
  | none => none
  | some (n, l) =>
    match decEntries n l with
    | none => none
    | some (entries, _) => some ⟨entries⟩

/-! ### Codec round-trip lemmas -/

theorem decLE_encLE (k : Nat) : ∀ (n : Nat) (rest : List Nat), n < 256 ^ k →
    decLE k (encLE k n ++ rest) = some (n, rest) := by
  induction k with
  | zero =>
    intro n rest h
    simp only [pow_zero, Nat.lt_one_iff] at h
    subst h
    simp [encLE, decLE]
  | succ k ih =>
    intro n rest h
    have hdiv : n / 256 < 256 ^ k := by
      rw [Nat.div_lt_iff_lt_mul (by norm_num)]
      calc n < 256 ^ (k + 1) := h
        _ = 256 ^ k * 256 := by ring
    simp [encLE, decLE, ih (n / 256) rest hdiv]
    omega

theorem readBytes_exact (l rest : List Nat) :
    readBytes l.length (l ++ rest) = some (l, rest) := by
  simp [readBytes, List.take_left, List.drop_left]

theorem decEntries_encEntry (entries : List (Nat × List Nat)) :
    ∀ rest : List Nat,
    (∀ e ∈ entries, e.1 < 2 ^ 32 ∧ e.2.length < 2 ^ 64) →
    decEntries entries.length ((entries.map encEntry).flatten ++ rest) =
      some (entries, rest) := by
  induction entries with
  | nil => intro rest _; simp [decEntries]
  | cons e tl ih =>
    intro rest h
    have he := h e (by simp)
    have hkey : e.1 < 256 ^ 4 := by
      have : (256 : Nat) ^ 4 = 2 ^ 32 := by norm_num
      omega
    have hlen : e.2.length < 256 ^ 8 := by
      have : (256 : Nat) ^ 8 = 2 ^ 64 := by norm_num
      omega
    have htl : ∀ x ∈ tl, x.1 < 2 ^ 32 ∧ x.2.length < 2 ^ 64 := by
      intro x hx; exact h x (by simp [hx])
    simp only [List.length_cons, List.map_cons, List.flatten_cons, encEntry,
      List.append_assoc, decEntries, decLE_encLE 4 e.1 _ hkey,
      decLE_encLE 8 e.2.length _ hlen, readBytes_exact, ih rest htl]

/-- Well-formedness needed for the blob round trip: few enough segments, `u32`
keys, `u64`-sized byte arrays. -/
def BlobWF (b : PortBitmap) : Prop :=
  b.segments.length < 2 ^ 64 ∧ ∀ e ∈ b.segments, e.1 < 2 ^ 32 ∧ e.2.length < 2 ^ 64

/-- Deserialisation inverts serialisation on well-formed bitmaps. -/
theorem from_blob_to_blob (b : PortBitmap) (h : BlobWF b) :
    PortBitmap.from_blob b.to_blob = some b := by
  obtain ⟨hlen, hent⟩ := h
  have hlen' : b.segments.length < 256 ^ 8 := by
    have : (256 : Nat) ^ 8 = 2 ^ 64 := by norm_num
    omega
  have hdec := decEntries_encEntry b.segments [] hent
  rw [List.append_nil] at hdec
  simp only [PortBitmap.to_blob, PortBitmap.from_blob,
    decLE_encLE 8 b.segments.length _ hlen', hdec]

/-! ### Bit-level lemmas about `set` / `get` -/

theorem and_two_pow_sub_one (n i : Nat) : n &&& (2 ^ i - 1) = n % 2 ^ i := by
  apply Nat.eq_of_testBit_eq
  intro j
  rw [Nat.testBit_land, Nat.testBit_two_pow_sub_one, Nat.testBit_mod_two_pow]
  exact Bool.and_comm _ _

theorem segment_size_eq : SEGMENT_SIZE = 2 ^ 21 := by norm_num [SEGMENT_SIZE]

theorem getSegmentAndOffset_eq (i : Nat) :
    getSegmentAndOffset i = (i / 2 ^ 24, i % 2 ^ 24) := by
  unfold getSegmentAndOffset
  rw [Nat.shiftRight_eq_div_pow,
    show (0xFFFFFF : Nat) = 2 ^ 24 - 1 from by norm_num, and_two_pow_sub_one]

theorem and_shift_ne_zero (byte k : Nat) :
    decide (byte &&& (1 <<< k) ≠ 0) = byte.testBit k := by
  rw [Nat.one_shiftLeft, Nat.and_two_pow]
  cases h : byte.testBit k <;> simp [h]

theorem testBit_or_shift (byte k m : Nat) :
    (byte ||| (1 <<< k)).testBit m = (byte.testBit m || decide (m = k)) := by
  rw [Nat.one_shiftLeft, Nat.testBit_lor]
  rcases eq_or_ne m k with rfl | hne
  · simp [Nat.testBit_two_pow_self]
  · simp [Nat.testBit_two_pow_of_ne (Ne.symm hne), hne]

theorem testBit_and_mask (byte k m : Nat) (hbyte : byte < 256) (hk : k < 8) :
    (byte &&& (255 ^^^ (1 <<< k))).testBit m = (byte.testBit m && decide (m ≠ k)) := by
  have h255 : (255 : Nat) = 2 ^ 8 - 1 := by norm_num
  rw [Nat.one_shiftLeft, Nat.testBit_land, Nat.testBit_xor, h255,
    Nat.testBit_two_pow_sub_one]
  rcases Nat.lt_or_ge m 8 with hm | hm
  · rcases eq_or_ne m k with rfl | hne
    · simp [Nat.testBit_two_pow_self, hm]
    · simp [Nat.testBit_two_pow_of_ne (Ne.symm hne), hne, hm]
  · have hbit : byte.testBit m = false := by
      apply Nat.testBit_eq_false_of_lt
      calc byte < 256 := hbyte
        _ = 2 ^ 8 := by norm_num
        _ ≤ 2 ^ m := Nat.pow_le_pow_right (by norm_num) hm
    have hne : m ≠ k := by omega
    simp [hbit, hne, hm]

theorem lookup_cons_eq {α : Type} (k : Nat) (v : α) (tl : List (Nat × α)) :
    List.lookup k ((k, v) :: tl) = some v := by
  simp [List.lookup]

theorem lookup_cons_ne {α : Type} {k ke : Nat} (h : k ≠ ke) (ve : α)
    (tl : List (Nat × α)) :
    List.lookup k ((ke, ve) :: tl) = List.lookup k tl := by
  have hb : (k == ke) = false := by simpa using h
  simp [List.lookup, hb]

theorem lookup_updateAssoc {α : Type} (l : List (Nat × α)) (k k' : Nat) (v : α) :
    (updateAssoc l k v).lookup k' = if k' = k then some v else l.lookup k' := by
  induction l with
  | nil =>
    by_cases h : k' = k
    · subst h; simp [updateAssoc, lookup_cons_eq]
    · have hb : (k' == k) = false := by simpa using h
      simp [updateAssoc, h, List.lookup, hb]
  | cons e tl ih =>
    rcases e with ⟨ke, ve⟩
    by_cases hk : ke = k
    · subst hk
      by_cases h : k' = ke
      · subst h; simp [updateAssoc, lookup_cons_eq]
      · simp [updateAssoc, lookup_cons_ne h, h]
    · by_cases h : k' = ke
      · subst h
        simp [updateAssoc, hk, lookup_cons_eq, Ne.symm hk]
      · simp [updateAssoc, hk, lookup_cons_ne h, ih]

theorem mem_updateAssoc {α : Type} (l : List (Nat × α)) (k : Nat) (v : α) :
    ∀ e ∈ updateAssoc l k v, e = (k, v) ∨ e ∈ l := by
  induction l with
  | nil =>
    intro e he
    simp only [updateAssoc] at he
    exact Or.inl (List.mem_singleton.mp he)
  | cons hd tl ih =>
    intro e he
    rcases hd with ⟨ke, ve⟩
    simp only [updateAssoc] at he
    by_cases hk : ke = k
    · rw [if_pos hk] at he
      rcases List.mem_cons.mp he with h | h
      · exact Or.inl h
      · exact Or.inr (List.mem_cons_of_mem _ h)
    · rw [if_neg hk] at he
      rcases List.mem_cons.mp he with h | h
      · exact Or.inr (by rw [h]; exact List.mem_cons_self _ _)
      · rcases ih e h with h' | h'
        · exact Or.inl h'
        · exact Or.inr (List.mem_cons_of_mem _ h')

theorem keys_updateAssoc {α : Type} (l : List (Nat × α)) (k : Nat) (v : α) :
    (k ∈ l.map Prod.fst ∧ (updateAssoc l k v).map Prod.fst = l.map Prod.fst) ∨
      (k ∉ l.map Prod.fst ∧
        (updateAssoc l k v).map Prod.fst = l.map Prod.fst ++ [k]) := by
  induction l with
  | nil => exact Or.inr ⟨by simp, by simp [updateAssoc]⟩
  | cons hd tl ih =>
    rcases hd with ⟨ke, ve⟩
    by_cases hk : ke = k
    · subst hk
      exact Or.inl ⟨by simp, by simp [updateAssoc]⟩
    · rcases ih with ⟨hmem, heq⟩ | ⟨hnmem, heq⟩
      · exact Or.inl ⟨by simp [hmem], by simp [updateAssoc, hk, heq]⟩
      · refine Or.inr ⟨?_, by simp [updateAssoc, hk, heq]⟩
        simp only [List.map_cons, List.mem_cons]
        rintro (h | h)
        · exact hk (by rw [h])
        · exact hnmem h

theorem lookup_mem {α : Type} (l : List (Nat × α)) (k : Nat) (v : α)
    (h : l.lookup k = some v) : (k, v) ∈ l := by
  induction l with
  | nil => simp [List.lookup] at h
  | cons hd tl ih =>
    rcases hd with ⟨ke, ve⟩
    by_cases hk : k = ke
    · subst hk
      rw [lookup_cons_eq] at h
      simp only [Option.some.injEq] at h
      simp [h]
    · rw [lookup_cons_ne hk] at h
      exact List.mem_cons_of_mem _ (ih h)

/-- Structural well-formedness of bitmaps reachable from `PortBitmap::new` by
`set` with `u32` indexes: at most one entry per segment id, segment ids below
256, segments of exactly `SEGMENT_SIZE` bytes, all byte values below 256. -/
def SegWF (b : PortBitmap) : Prop :=
  (b.segments.map Prod.fst).Nodup ∧
    ∀ e ∈ b.segments, e.1 < 256 ∧ e.2.length = SEGMENT_SIZE ∧ ∀ y ∈ e.2, y < 256

theorem segWF_new : SegWF PortBitmap.new := by
  constructor <;> simp [PortBitmap.new]

theorem SegWF.blobWF {b : PortBitmap} (h : SegWF b) : BlobWF b := by
  obtain ⟨hnd, hent⟩ := h
  constructor
  · have hsub : (b.segments.map Prod.fst).toFinset ⊆ Finset.range 256 := by
      intro x hx
      simp only [List.mem_toFinset, List.mem_map] at hx
      obtain ⟨e, he, rfl⟩ := hx
      exact Finset.mem_range.mpr (hent e he).1
    have hcard := Finset.card_le_card hsub
    rw [List.toFinset_card_of_nodup hnd, Finset.card_range] at hcard
    have : b.segments.length = (b.segments.map Prod.fst).length := by simp
    omega
  · intro e he
    refine ⟨lt_trans (hent e he).1 (by norm_num), ?_⟩
    rw [(hent e he).2.1]
    norm_num [SEGMENT_SIZE]

/-- The effective segment for a segment id (missing segments read as zeroed). -/
def segOf (b : PortBitmap) (s : Nat) : List Nat :=
  (b.segments.lookup s).getD (List.replicate SEGMENT_SIZE 0)

theorem segOf_length {b : PortBitmap} (h : SegWF b) (s : Nat) :
    (segOf b s).length = SEGMENT_SIZE := by
  unfold segOf
  cases hl : b.segments.lookup s with
  | none => simp
  | some seg => simpa using (h.2 (s, seg) (lookup_mem _ _ _ hl)).2.1

theorem segOf_bytes {b : PortBitmap} (h : SegWF b) (s : Nat) :
    ∀ y ∈ segOf b s, y < 256 := by
  unfold segOf
  cases hl : b.segments.lookup s with
  | none =>
    intro y hy
    simp only [Option.getD_none] at hy
    have := List.eq_of_mem_replicate hy
    omega
  | some seg =>
    intro y hy
    exact (h.2 (s, seg) (lookup_mem _ _ _ hl)).2.2 y (by simpa using hy)

theorem shift24 (i : Nat) : i >>> 24 = i / 2 ^ 24 :=
  Nat.shiftRight_eq_div_pow i 24

theorem mask24 (i : Nat) : i &&& 0xFFFFFF = i % 2 ^ 24 := by
  rw [show (0xFFFFFF : Nat) = 2 ^ 24 - 1 from by norm_num, and_two_pow_sub_one]

theorem get_eq_testBit (b : PortBitmap) (j : Nat) :
    b.get j = ((segOf b (j / 2 ^ 24)).getD (j % 2 ^ 24 / 8) 0).testBit
      (j % 2 ^ 24 % 8) := by
  have hdef : b.get j =
      (match b.segments.lookup (j >>> 24) with
        | some seg =>
          decide ((seg.getD ((j &&& 0xFFFFFF) / 8) 0) &&&
            (1 <<< ((j &&& 0xFFFFFF) % 8)) ≠ 0)
        | none => false) := rfl
  rw [hdef, shift24, mask24]
  show (match b.segments.lookup (j / 2 ^ 24) with
      | some seg =>
        decide ((seg.getD (j % 2 ^ 24 / 8) 0) &&& (1 <<< (j % 2 ^ 24 % 8)) ≠ 0)
      | none => false) =
    (((b.segments.lookup (j / 2 ^ 24)).getD
        (List.replicate SEGMENT_SIZE 0)).getD (j % 2 ^ 24 / 8) 0).testBit
      (j % 2 ^ 24 % 8)
  cases b.segments.lookup (j / 2 ^ 24) with
  | none =>
    have hz : (List.replicate SEGMENT_SIZE (0 : Nat)).getD (j % 2 ^ 24 / 8) 0 = 0 := by
      rw [List.getD_eq_getElem?_getD, List.getElem?_replicate]
      split <;> simp
    rw [Option.getD_none, hz]
    exact (Nat.zero_testBit _).symm
  | some seg =>
    rw [Option.getD_some]
    exact and_shift_ne_zero _ _

theorem set_segments (b : PortBitmap) (i : Nat) (v : Bool) :
    (b.set i v).segments =
      updateAssoc b.segments (i / 2 ^ 24)
        ((segOf b (i / 2 ^ 24)).set (i % 2 ^ 24 / 8)
          (if v then ((segOf b (i / 2 ^ 24)).getD (i % 2 ^ 24 / 8) 0) ||| (1 <<< (i % 2 ^ 24 % 8))
           else ((segOf b (i / 2 ^ 24)).getD (i % 2 ^ 24 / 8) 0) &&& (255 ^^^ (1 <<< (i % 2 ^ 24 % 8))))) := by
  have hdef : (b.set i v).segments =
      updateAssoc b.segments (i >>> 24)
        ((segOf b (i >>> 24)).set ((i &&& 0xFFFFFF) / 8)
          (if v then ((segOf b (i >>> 24)).getD ((i &&& 0xFFFFFF) / 8) 0) ||| (1 <<< ((i &&& 0xFFFFFF) % 8))
           else ((segOf b (i >>> 24)).getD ((i &&& 0xFFFFFF) / 8) 0) &&& (255 ^^^ (1 <<< ((i &&& 0xFFFFFF) % 8))))) := rfl
  rw [hdef, shift24, mask24]

theorem segOf_set (b : PortBitmap) (i : Nat) (v : Bool) (t : Nat) :
    segOf (b.set i v) t =
      if t = i / 2 ^ 24 then
        (segOf b (i / 2 ^ 24)).set (i % 2 ^ 24 / 8)
          (if v then ((segOf b (i / 2 ^ 24)).getD (i % 2 ^ 24 / 8) 0) ||| (1 <<< (i % 2 ^ 24 % 8))
           else ((segOf b (i / 2 ^ 24)).getD (i % 2 ^ 24 / 8) 0) &&& (255 ^^^ (1 <<< (i % 2 ^ 24 % 8))))
      else segOf b t := by
  show ((b.set i v).segments.lookup t).getD (List.replicate SEGMENT_SIZE 0) = _
  rw [set_segments, lookup_updateAssoc]
  by_cases h : t = i / 2 ^ 24
  · rw [if_pos h, if_pos h, Option.getD_some]
  · rw [if_neg h, if_neg h]
    rfl

/-- `set` preserves structural well-formedness for `u32` indexes. -/
theorem segWF_set {b : PortBitmap} (h : SegWF b) (i : Nat) (hi : i < 2 ^ 32)
    (v : Bool) : SegWF (b.set i v) := by
  obtain ⟨hnd, hent⟩ := h
  have hseg : i / 2 ^ 24 < 256 := by omega
  have hlen : (segOf b (i / 2 ^ 24)).length = SEGMENT_SIZE :=
    segOf_length ⟨hnd, hent⟩ _
  have hbytes := segOf_bytes ⟨hnd, hent⟩ (i / 2 ^ 24)
  have holdbyte : (segOf b (i / 2 ^ 24)).getD (i % 2 ^ 24 / 8) 0 < 256 := by
    rw [List.getD_eq_getElem?_getD]
    cases hb : (segOf b (i / 2 ^ 24))[i % 2 ^ 24 / 8]? with
    | none => simp
    | some y =>
      have : y ∈ segOf b (i / 2 ^ 24) := List.getElem?_mem hb
      simpa using hbytes y this
  have hnew : (if v then ((segOf b (i / 2 ^ 24)).getD (i % 2 ^ 24 / 8) 0) ||| (1 <<< (i % 2 ^ 24 % 8))
      else ((segOf b (i / 2 ^ 24)).getD (i % 2 ^ 24 / 8) 0) &&& (255 ^^^ (1 <<< (i % 2 ^ 24 % 8)))) < 256 := by
    cases v with
    | true =>
      rw [if_pos rfl]
      have h1 : (1 <<< (i % 2 ^ 24 % 8)) < 256 := by
        rw [Nat.one_shiftLeft]
        calc 2 ^ (i % 2 ^ 24 % 8) ≤ 2 ^ 7 := Nat.pow_le_pow_right (by norm_num) (by omega)
          _ < 256 := by norm_num
      have h256 : (256 : Nat) = 2 ^ 8 := by norm_num
      rw [h256] at holdbyte h1 ⊢
      exact Nat.or_lt_two_pow holdbyte h1
    | false =>
      rw [if_neg Bool.false_ne_true]
      exact lt_of_le_of_lt Nat.and_le_left holdbyte
  constructor
  · rw [set_segments]
    rcases keys_updateAssoc b.segments (i / 2 ^ 24)
        ((segOf b (i / 2 ^ 24)).set (i % 2 ^ 24 / 8)
          (if v then ((segOf b (i / 2 ^ 24)).getD (i % 2 ^ 24 / 8) 0) ||| (1 <<< (i % 2 ^ 24 % 8))
           else ((segOf b (i / 2 ^ 24)).getD (i % 2 ^ 24 / 8) 0) &&& (255 ^^^ (1 <<< (i % 2 ^ 24 % 8))))) with
      hk | hk
    · rw [hk.2]; exact hnd
    · rw [hk.2, List.nodup_append]
      refine ⟨hnd, List.nodup_singleton _, ?_⟩
      intro a ha ha'
      rw [List.mem_singleton] at ha'
      subst ha'
      exact hk.1 ha
  · rw [set_segments]
    intro e he
    rcases mem_updateAssoc _ _ _ e he with rfl | he'
    · refine ⟨hseg, ?_, ?_⟩
      · simpa [List.length_set] using hlen
      · intro y hy
        rcases List.mem_or_eq_of_mem_set hy with hy' | rfl
        · exact hbytes y hy'
        · exact hnew
    · exact hent e he'

/-- Reads after writes: `set` changes exactly the bit it addresses. -/
theorem get_set {b : PortBitmap} (h : SegWF b) {i j : Nat} (hi : i < 2 ^ 32)
    (_hj : j < 2 ^ 32) (v : Bool) :
    (b.set i v).get j = if j = i then v else b.get j := by
  have hlen : (segOf b (i / 2 ^ 24)).length = SEGMENT_SIZE := segOf_length h _
  have hbytes := segOf_bytes h (i / 2 ^ 24)
  have hbi : i % 2 ^ 24 / 8 < SEGMENT_SIZE := by
    rw [segment_size_eq]
    have : i % 2 ^ 24 < 2 ^ 24 := Nat.mod_lt _ (by norm_num)
    omega
  have holdbyte : (segOf b (i / 2 ^ 24)).getD (i % 2 ^ 24 / 8) 0 < 256 := by
    rw [List.getD_eq_getElem?_getD]
    cases hb : (segOf b (i / 2 ^ 24))[i % 2 ^ 24 / 8]? with
    | none => simp
    | some y =>
      have : y ∈ segOf b (i / 2 ^ 24) := List.getElem?_mem hb
      simpa using hbytes y this
  rw [get_eq_testBit, get_eq_testBit, segOf_set]
  by_cases hs : j / 2 ^ 24 = i / 2 ^ 24
  · rw [if_pos hs, hs]
    by_cases hbyte : j % 2 ^ 24 / 8 = i % 2 ^ 24 / 8
    · rw [hbyte, List.getD_eq_getElem?_getD,
        List.getElem?_set_eq_of_lt _ (by rw [hlen]; exact hbi), Option.getD_some]
      by_cases hij : j = i
      · subst hij
        rw [if_pos rfl]
        cases v with
        | true =>
          rw [if_pos rfl, testBit_or_shift, decide_eq_true rfl, Bool.or_true]
        | false =>
          rw [if_neg Bool.false_ne_true,
            testBit_and_mask _ _ _ holdbyte (Nat.mod_lt _ (by norm_num)),
            decide_eq_false (by omega), Bool.and_false]
      · rw [if_neg hij]
        -- same segment and byte but different index: the bit positions differ
        have hoff : j % 2 ^ 24 ≠ i % 2 ^ 24 := by
          intro hcon
          apply hij
          have h1 := Nat.div_add_mod i (2 ^ 24)
          have h2 := Nat.div_add_mod j (2 ^ 24)
          omega
        have hbit : j % 2 ^ 24 % 8 ≠ i % 2 ^ 24 % 8 := by
          intro hcon
          apply hoff
          have h1 := Nat.div_add_mod (i % 2 ^ 24) 8
          have h2 := Nat.div_add_mod (j % 2 ^ 24) 8
          omega
        cases v with
        | true =>
          rw [if_pos rfl, testBit_or_shift, decide_eq_false hbit, Bool.or_false]
        | false =>
          rw [if_neg Bool.false_ne_true,
            testBit_and_mask _ _ _ holdbyte (Nat.mod_lt _ (by norm_num)),
            decide_eq_true hbit, Bool.and_true]
    · have hij : j ≠ i := by
        intro hcon; exact hbyte (by rw [hcon])
      rw [if_neg hij, List.getD_eq_getElem?_getD,
        List.getElem?_set_ne (Ne.symm hbyte), ← List.getD_eq_getElem?_getD]
  · have hij : j ≠ i := by
      intro hcon; exact hs (by rw [hcon])
    rw [if_neg hs, if_neg hij]

theorem get_new (j : Nat) : PortBitmap.new.get j = false := by
  simp [PortBitmap.get, PortBitmap.new, List.lookup]

/-! ### IPv4 string parsing (`ipv4_to_index` in src/model/bitmap.rs)

`ip.parse::<Ipv4Addr>()` accepts exactly four dot-separated decimal octets,
each without leading zeros (unless the octet is `"0"`) and at most 255. -/

/-- Rust's `str::split(sep)` on a single separator character, over the
character list: every occurrence of `sep` starts a new piece, and empty
pieces are kept (`"".split(sep)` yields one empty piece). -/
def splitOnChar (sep : Char) : List Char → List (List Char)
  | [] => [[]]
  | c :: rest =>
    if c = sep then [] :: splitOnChar sep rest
    else
      match splitOnChar sep rest with
      | [] => [[c]]
      | g :: gs => (c :: g) :: gs

/-- Rust's `str::trim`: strip leading and trailing whitespace. -/
def trimChars (l : List Char) : List Char :=
  ((l.dropWhile Char.isWhitespace).reverse.dropWhile Char.isWhitespace).reverse

/-- One decimal octet of a dotted-quad IPv4 address, as accepted by Rust's
`Ipv4Addr` parser. -/
def parseOctet (s : List Char) : Option Nat :=
  if s.length = 0 then none
  else if s.all Char.isDigit then
    if 1 < s.length ∧ s.headD '0' = '0' then none
    else
      let n := s.foldl (fun a c => a * 10 + (c.toNat - 48)) 0
      if n ≤ 255 then some n else none
  else none

/-- `ipv4_to_index` from src/model/bitmap.rs: parse a dotted quad and return
`u32::from(addr)`; `none` models the error case. -/
def ipv4_to_index (ip : String) : Option Nat :=
  match (splitOnChar '.' ip.toList).map parseOctet with
  | [some a, some b, some c, some d] => some (((a * 256 + b) * 256 + c) * 256 + d)
  | _ => none

theorem parseOctet_le (s : List Char) (n : Nat) (h : parseOctet s = some n) :
    n ≤ 255 := by
  unfold parseOctet at h
  split_ifs at h with h1 h2 h3
  dsimp only [] at h
  split_ifs at h with h4
  simp only [Option.some.injEq] at h
  omega

theorem ipv4_to_index_lt (ip : String) (n : Nat) (h : ipv4_to_index ip = some n) :
    n < 2 ^ 32 := by
  have bound : ∀ x, some x ∈ (splitOnChar '.' ip.toList).map parseOctet →
      x ≤ 255 := by
    intro x hx
    rcases List.mem_map.mp hx with ⟨s, _, hs⟩
    exact parseOctet_le s x hs
  unfold ipv4_to_index at h
  split at h
  case _ a b c d hm =>
    have ha := bound a (by rw [hm]; simp)
    have hb := bound b (by rw [hm]; simp)
    have hc := bound c (by rw [hm]; simp)
    have hd := bound d (by rw [hm]; simp)
    simp only [Option.some.injEq] at h
    subst h
    calc ((a * 256 + b) * 256 + c) * 256 + d
        ≤ ((255 * 256 + 255) * 256 + 255) * 256 + 255 := by
          apply Nat.add_le_add _ hd
          apply Nat.mul_le_mul_right
          apply Nat.add_le_add _ hc
          apply Nat.mul_le_mul_right
          exact Nat.add_le_add (Nat.mul_le_mul_right _ ha) hb
      _ < 2 ^ 32 := by norm_num
  case _ => exact absurd h (by simp)

/-! ### IpIterator (src/model/ip_range.rs), IPv4 instantiation

The iterator state holds the current and final address as `u32` values plus
the `finished` flag; `next` mirrors `impl Iterator for IpIterator` restricted
to the `IpAddr::V4` arm. -/

structure IpIterator where
  current : Nat
  endIp : Nat
  finished : Bool
deriving DecidableEq

/-- `IpIterator::increment_ipv4`. -/
def increment_ipv4 (ip : Nat) : Option Nat :=
  if ip = 2 ^ 32 - 1 then none else some (ip + 1)

/-- `IpIterator::next` (IPv4 arm). -/
def IpIterator.next (it : IpIterator) : Option (Nat × IpIterator) :=
  if it.finished then none
  else
    let result := it.current
    if it.current = it.endIp then some (result, { it with finished := true })
    else
      match increment_ipv4 it.current with
      | some nxt => some (result, { it with current := nxt })
      | none => some (result, { it with finished := true })

/-- Drive the iterator for at most `fuel` steps, collecting the yields. -/
def runIter : Nat → IpIterator → List Nat
  | 0, _ => []
  | fuel + 1, it =>
    match it.next with
    | none => []
    | some (x, it') => x :: runIter fuel it'

theorem runIter_finished (fuel : Nat) (cur endIp : Nat) :
    runIter fuel ⟨cur, endIp, true⟩ = [] := by
  cases fuel with
  | zero => rfl
  | succ f => simp [runIter, IpIterator.next]

theorem runIter_spec (endIp : Nat) (hend : endIp < 2 ^ 32) :
    ∀ fuel start, start ≤ endIp → endIp - start < fuel →
      runIter fuel ⟨start, endIp, false⟩ =
        List.range' start (endIp - start + 1) := by
  intro fuel
  induction fuel with
  | zero => intro start _ hf; omega
  | succ f ih =>
    intro start hse hf
    by_cases heq : start = endIp
    · subst heq
      simp [runIter, IpIterator.next, runIter_finished, List.range']
    · have hlt : start < endIp := lt_of_le_of_ne hse heq
      have h32 : (2 : Nat) ^ 32 = 4294967296 := by norm_num
      have hend' : endIp < 4294967296 := by rw [h32] at hend; exact hend
      have hmax : start ≠ 4294967295 := by omega
      have hstep : runIter (f + 1) ⟨start, endIp, false⟩ =
          start :: runIter f ⟨start + 1, endIp, false⟩ := by
        simp [runIter, IpIterator.next, increment_ipv4, heq, hmax]
      rw [hstep, ih (start + 1) hlt (by omega), ← List.range'_succ]
      congr 1
      omega

/-! ### Port-string parser (`parse_port_range` in src/model/ip_range.rs) -/

/-- Rust `str::parse::<u16>()`: optional leading `+`, one or more decimal
digits, value at most `u16::MAX`. -/
def parseU16 (s : List Char) : Option Nat :=
  let t := match s with
    | '+' :: rest => rest
    | _ => s
  if t.length = 0 then none
  else if t.all Char.isDigit then
    let n := t.foldl (fun a c => a * 10 + (c.toNat - 48)) 0
    if n ≤ 65535 then some n else none
  else none

/-- `parse_port_range` from src/model/ip_range.rs.  The `(start..=end)`
collection is `List.range' start (end - start + 1)`; `Except.error` carries the
Rust error strings. -/
def parse_port_range (range : String) : Except String (List Nat) :=
  if range.toList.contains '-' then
    match splitOnChar '-' range.toList with
    | [p0, p1] =>
      match parseU16 p0 with
      | none => .error "Invalid start port"
      | some s =>
        match parseU16 p1 with
        | none => .error "Invalid end port"
        | some e =>
          if s > e then .error "Start port must be less than or equal to end port"
          else .ok (List.range' s (e - s + 1))
    | _ => .error "Invalid port range format"
  else if range.toList.contains ',' then
    (splitOnChar ',' range.toList).mapM (fun s =>
      match parseU16 (trimChars s) with
      | some p => Except.ok p
      | none => Except.error ("Invalid port: " ++ String.mk s))
  else
    match parseU16 range.toList with
    | some p => .ok [p]
    | none => .error "Invalid port number"

/-! ### Rate limiter (src/rate_limiter.rs and src/service/rate_limiter.rs)

`RateLimiter::acquire` first refills the semaphore when `window_duration` has
elapsed since `last_reset`, then runs `let _ = self.semaphore.acquire().await`.
The binder `_` drops the returned `SemaphorePermit` at once, and dropping a
tokio permit returns it to the semaphore, so a completed call leaves
`available` unchanged.  `acquireStep` returns `none` when the call would block
(no permit available), `some st` when it completes with post-state `st`.
Time is abstract (`Nat` instants); `now - lastReset` models
`last_reset.elapsed()`. -/

structure RateLimiterState where
  available : Nat
  lastReset : Nat
deriving DecidableEq

/-- `RateLimiter::new(max_rate, _)` at creation instant `now`. -/
def rateLimiterInit (maxRate now : Nat) : RateLimiterState :=
  ⟨maxRate, now⟩

/-- One `acquire().await` call at instant `now`. -/
def acquireStep (maxRate window : Nat) (st : RateLimiterState) (now : Nat) :
    Option RateLimiterState :=
  let st1 :=
    if window ≤ now - st.lastReset then
      { lastReset := now
        available :=
          if st.available < maxRate then st.available + (maxRate - st.available)
          else st.available }
    else st
  if st1.available = 0 then none else some st1

/-- A sequence of `acquire` calls at the given instants; `none` as soon as one
of them blocks. -/
def runAcquires (maxRate window : Nat) (st : RateLimiterState)
    (times : List Nat) : Option RateLimiterState :=
  times.foldlM (acquireStep maxRate window) st

/-! ### SYN receiver outcome filter (src/service/syn_scanner.rs, L4 path)

For each inbound TCP segment the receiver thread checks
`tcp.get_flags() & (TcpFlags::SYN | TcpFlags::ACK) == (TcpFlags::SYN | TcpFlags::ACK)`
and, when it holds, emits `(src_ip, src_port, true)`; otherwise nothing. -/

def TCP_SYN : Nat := 2
def TCP_ACK : Nat := 16
def TCP_RST : Nat := 4

/-- The outcome (if any) the SYN receiver emits for one inbound TCP segment. -/
def syn_receiver_outcome (srcIp : String) (srcPort : Nat) (flags : Nat) :
    Option (String × Nat × Bool) :=
  if flags &&& (TCP_SYN ||| TCP_ACK) = TCP_SYN ||| TCP_ACK then
    some (srcIp, srcPort, true)
  else none

/-! ### Resume-cursor logic (src/main.rs, `run_scanner_logic`) -/

/-- `Args::get_default_ipv4_range`. -/
def get_default_ipv4_range : String × String :=
  ("0.0.0.0", "255.255.255.255")

/-- The triple produced by the `db.get_progress()?.map(..).unwrap_or_else(..)`
at the top of `run_scanner_logic`: current round, resume ip, resume ip type. -/
structure ResumeState where
  current_round : Int
  resume_ip : Option String
  resume_ip_type : Option String
deriving DecidableEq

def initResume (progress : Option (String × String × Int)) : ResumeState :=
  match progress with
  | some (ip, ipType, round) => ⟨round, some ip, some ipType⟩
  | none => ⟨1, none, none⟩

/-- `args.start_ip.zip(args.end_ip).map(..).unwrap_or_else(get_default_ipv4_range)`. -/
def startEndIp (argsStart argsEnd : Option String) : String × String :=
  match argsStart, argsEnd with
  | some s, some e => (s, e)
  | _, _ => get_default_ipv4_range

/-- The `actual_start_ip` computation in `run_scanner_logic`: when the persisted
resume type is `"IPv4"`, the persisted ip (if any) is used, else the configured
or default start ip. -/
def actual_start_ip (argsStart argsEnd : Option String) (rs : ResumeState) :
    String :=
  if rs.resume_ip_type = some "IPv4" then
    (rs.resume_ip.map (fun ip => ip)).getD (startEndIp argsStart argsEnd).1
  else (startEndIp argsStart argsEnd).1

/-! ### SQLite store (src/dao/sqlite_db.rs)

The two tables touched by the port-status writers are modelled as partial
maps: `port_bitmaps` keyed by `(port, scan_round)` (the `ip_type` column is
the constant `"IPv4"` on every write path and is dropped from the key) and
`open_ports_detail` keyed by `(ip_address, port)`.  Timestamps are abstract
`Nat` instants; all `Utc::now()` readings taken during a single method call
are modelled by that call's single `now` parameter.  A method returning
`Result` is modelled with `Option`: `none` is the `Err` case, in which the
surrounding transaction is rolled back and the store is unchanged. -/

structure BitmapRow where
  bitmap : List Nat
  open_count : Nat
  last_updated : Nat
deriving DecidableEq

structure DetailRow where
  ip_type : String
  scan_round : Int
  first_seen : Nat
  last_seen : Nat
deriving DecidableEq

structure DB where
  port_bitmaps : Nat → Int → Option BitmapRow
  open_ports_detail : String → Nat → Option DetailRow

def emptyDB : DB := ⟨fun _ _ => none, fun _ _ => none⟩

/-- `SqliteDB::get_port_bitmap_internal` (with `ip_type = "IPv4"`): parse the
stored blob, or a fresh bitmap when the row is missing. -/
def get_port_bitmap_internal (db : DB) (port : Nat) (round : Int) :
    Option PortBitmap :=
  match db.port_bitmaps port round with
  | some row => PortBitmap.from_blob row.bitmap
  | none => some PortBitmap.new

/-- The `INSERT .. ON CONFLICT(port, ip_type, scan_round) DO UPDATE` on
`port_bitmaps`: every non-key column is replaced. -/
def upsertBitmapRow (db : DB) (port : Nat) (round : Int) (blob : List Nat)
    (cnt : Nat) (now : Nat) : DB :=
  { db with
    port_bitmaps := fun p r =>
      if p = port ∧ r = round then some ⟨blob, cnt, now⟩
      else db.port_bitmaps p r }

/-- The `INSERT .. ON CONFLICT(ip_address, port) DO UPDATE SET scan_round, last_seen`
on `open_ports_detail`: a fresh row gets `first_seen = last_seen = now`; an
existing row keeps `ip_type` and `first_seen`. -/
def upsertDetail (db : DB) (ip : String) (port : Nat) (round : Int) (now : Nat) :
    DB :=
  { db with
    open_ports_detail := fun i p =>
      if i = ip ∧ p = port then
        match db.open_ports_detail ip port with
        | some old => some { old with scan_round := round, last_seen := now }
        | none => some ⟨"IPv4", round, now, now⟩
      else db.open_ports_detail i p }

/-- Append `v` to the group of key `k` (`HashMap::entry(k).or_default().push(v)`). -/
def pushAssoc {α : Type} (l : List (Nat × List α)) (k : Nat) (v : α) :
    List (Nat × List α) :=
  match l with
  | [] => [(k, [v])]
  | (k', vs) :: rest =>
    if k' = k then (k', vs ++ [v]) :: rest else (k', vs) :: pushAssoc rest k v

/-- The grouping loop of `bulk_update_port_status`: parse each IP, silently
skipping invalid ones, and group `(ip_index, is_open, ip)` by port. -/
def groupByPort (updates : List (String × Nat × Bool)) :
    List (Nat × List (Nat × Bool × String)) :=
  updates.foldl
    (fun acc u =>
      match ipv4_to_index u.1 with
      | some ipIndex => pushAssoc acc u.2.1 (ipIndex, u.2.2, u.1)
      | none => acc)
    []

/-- The per-port body of `bulk_update_port_status`: load the bitmap, apply all
updates of this group in order, store blob and population count, then upsert a
detail row for every open outcome. -/
def applyPortGroup (round : Int) (now : Nat) (db : DB)
    (g : Nat × List (Nat × Bool × String)) : Option DB :=
  match get_port_bitmap_internal db g.1 round with
  | none => none
  | some bitmap0 =>
    let bitmap := g.2.foldl (fun b it => b.set it.1 it.2.1) bitmap0
    let db1 := upsertBitmapRow db g.1 round bitmap.to_blob bitmap.count_ones now
    some (g.2.foldl
      (fun d it => if it.2.1 then upsertDetail d it.2.2 g.1 round now else d) db1)

/-- `SqliteDB::bulk_update_port_status`.  An empty batch returns `Ok` without
opening a transaction; otherwise all groups are written in one transaction
(`none` = the transaction failed and was rolled back). -/
def bulk_update_port_status (db : DB) (updates : List (String × Nat × Bool))
    (round : Int) (now : Nat) : Option DB :=
  if updates.isEmpty then some db
  else (groupByPort updates).foldlM (applyPortGroup round now) db

/-- `SqliteDB::set_port_status`: the single-outcome writer.  An invalid IP is
an error before any write. -/
def set_port_status (db : DB) (ip : String) (port : Nat) (is_open : Bool)
    (round : Int) (now : Nat) : Option DB :=
  match ipv4_to_index ip with
  | none => none
  | some ipIndex =>
    match get_port_bitmap_internal db port round with
    | none => none
    | some bitmap0 =>
      let bitmap := bitmap0.set ipIndex is_open
      let db1 := upsertBitmapRow db port round bitmap.to_blob
        bitmap.count_ones now
      some (if is_open then upsertDetail db1 ip port round now else db1)

/-- One write against the store: the single or the batched writer. -/
inductive DbOp where
  | single (ip : String) (port : Nat) (isOpen : Bool) (round : Int) (now : Nat)
  | bulk (updates : List (String × Nat × Bool)) (round : Int) (now : Nat)

/-- Run one write; on `Err` the transaction is rolled back and the batch is
dropped (the writer logs and continues), leaving the store unchanged. -/
def applyOp (db : DB) : DbOp → DB
  | .single ip port o r t => (set_port_status db ip port o r t).getD db
  | .bulk ups r t => (bulk_update_port_status db ups r t).getD db

/-- A scan history: a sequence of writes against an initially empty store. -/
def applyTrace (ops : List DbOp) (db : DB) : DB :=
  ops.foldl applyOp db

def opTime : DbOp → Nat
  | .single _ _ _ _ t => t
  | .bulk _ _ t => t

/-! ### Trace-level outcome bookkeeping -/

/-- The `(ip_index, port, round, is_open)` outcomes an op applies, in order
(outcomes whose IP fails to parse are skipped by both writers). -/
def opOutcomes : DbOp → List (Nat × Nat × Int × Bool)
  | .single ip port o r _ =>
    match ipv4_to_index ip with
    | some i => [(i, port, r, o)]
    | none => []
  | .bulk ups r _ =>
    ups.filterMap (fun u => (ipv4_to_index u.1).map (fun i => (i, u.2.1, r, u.2.2)))

def traceOutcomes (ops : List DbOp) : List (Nat × Nat × Int × Bool) :=
  (ops.map opOutcomes).flatten

/-- The `(ip_index, is_open)` outcomes a trace applies to one `(port, round)`
bitmap row, in order. -/
def portRoundOutcomes (ops : List DbOp) (port : Nat) (r : Int) :
    List (Nat × Bool) :=
  (traceOutcomes ops).filterMap
    (fun o => if o.2.1 = port ∧ o.2.2.1 = r then some (o.1, o.2.2.2) else none)

/-- The successive values a trace writes to one bit of one bitmap row. -/
def bitWrites (ops : List DbOp) (port : Nat) (r : Int) (i : Nat) : List Bool :=
  (portRoundOutcomes ops port r).filterMap
    (fun o => if o.1 = i then some o.2 else none)

/-- The group of `(ip_index, is_open, ip)` entries `bulk_update_port_status`
collects for port `p`, in batch order. -/
def portItems (ups : List (String × Nat × Bool)) (p : Nat) :
    List (Nat × Bool × String) :=
  ups.filterMap (fun u =>
    if u.2.1 = p then (ipv4_to_index u.1).map (fun i => (i, u.2.2, u.1))
    else none)

/-! ### Helper lemmas for the batch writer -/

theorem getLast?_getD_append {α : Type} (l₁ l₂ : List α) (d : α) :
    (l₁ ++ l₂).getLast?.getD d = l₂.getLast?.getD (l₁.getLast?.getD d) := by
  rw [List.getLast?_append]
  cases l₂.getLast? <;> simp

theorem segWF_foldl_set {items : List (Nat × Bool × String)} {B : PortBitmap}
    (hB : SegWF B) (hidx : ∀ it ∈ items, it.1 < 2 ^ 32) :
    SegWF (items.foldl (fun b it => b.set it.1 it.2.1) B) := by
  induction items generalizing B with
  | nil => exact hB
  | cons it tl ih =>
    simp only [List.foldl_cons]
    exact ih (segWF_set hB it.1 (hidx it (by simp)) it.2.1)
      (fun x hx => hidx x (by simp [hx]))

theorem get_foldl_set {items : List (Nat × Bool × String)} {B : PortBitmap}
    (hB : SegWF B) (hidx : ∀ it ∈ items, it.1 < 2 ^ 32) {i : Nat}
    (hi : i < 2 ^ 32) :
    (items.foldl (fun b it => b.set it.1 it.2.1) B).get i =
      ((items.filterMap (fun it => if it.1 = i then some it.2.1 else none)).getLast?.getD
        (B.get i)) := by
  induction items generalizing B with
  | nil => simp
  | cons it tl ih =>
    simp only [List.foldl_cons, List.filterMap_cons]
    have hit : it.1 < 2 ^ 32 := hidx it (by simp)
    have htl : ∀ x ∈ tl, x.1 < 2 ^ 32 := fun x hx => hidx x (by simp [hx])
    rw [ih (segWF_set hB it.1 hit it.2.1) htl]
    by_cases hieq : it.1 = i
    · rw [if_pos hieq, get_set hB hit hi it.2.1, if_pos hieq.symm]
      exact (getLast?_getD_append [it.2.1] _ _).symm
    · rw [if_neg hieq, get_set hB hit hi it.2.1,
        if_neg (fun hcon => hieq hcon.symm)]

theorem lookup_pushAssoc_eq {α : Type} (l : List (Nat × List α)) (k : Nat)
    (v : α) :
    (pushAssoc l k v).lookup k = some ((l.lookup k).getD [] ++ [v]) := by
  induction l with
  | nil => simp [pushAssoc, lookup_cons_eq, List.lookup]
  | cons hd tl ih =>
    rcases hd with ⟨ke, vs⟩
    by_cases hk : ke = k
    · subst hk
      simp [pushAssoc, lookup_cons_eq]
    · have hkk : k ≠ ke := fun hcon => hk hcon.symm
      simp only [pushAssoc, if_neg hk]
      rw [lookup_cons_ne hkk, lookup_cons_ne hkk, ih]

theorem lookup_pushAssoc_ne {α : Type} (l : List (Nat × List α)) {k p : Nat}
    (hne : p ≠ k) (v : α) :
    (pushAssoc l k v).lookup p = l.lookup p := by
  induction l with
  | nil =>
    rw [show pushAssoc ([] : List (Nat × List α)) k v = [(k, [v])] from rfl,
      lookup_cons_ne hne]
  | cons hd tl ih =>
    rcases hd with ⟨ke, vs⟩
    simp only [pushAssoc]
    by_cases hk : ke = k
    · rw [if_pos hk]
      have hpke : p ≠ ke := by rw [hk]; exact hne
      rw [lookup_cons_ne hpke, lookup_cons_ne hpke]
    · rw [if_neg hk]
      by_cases hp : p = ke
      · subst hp
        rw [lookup_cons_eq, lookup_cons_eq]
      · rw [lookup_cons_ne hp, lookup_cons_ne hp, ih]

theorem keys_pushAssoc {α : Type} (l : List (Nat × List α)) (k : Nat) (v : α) :
    (k ∈ l.map Prod.fst ∧ (pushAssoc l k v).map Prod.fst = l.map Prod.fst) ∨
      (k ∉ l.map Prod.fst ∧
        (pushAssoc l k v).map Prod.fst = l.map Prod.fst ++ [k]) := by
  induction l with
  | nil => exact Or.inr ⟨by simp, by simp [pushAssoc]⟩
  | cons hd tl ih =>
    rcases hd with ⟨ke, vs⟩
    by_cases hk : ke = k
    · subst hk
      exact Or.inl ⟨by simp, by simp [pushAssoc]⟩
    · rcases ih with ⟨hmem, heq⟩ | ⟨hnmem, heq⟩
      · exact Or.inl ⟨by simp [hmem], by simp [pushAssoc, hk, heq]⟩
      · refine Or.inr ⟨?_, by simp [pushAssoc, hk, heq]⟩
        simp only [List.map_cons, List.mem_cons]
        rintro (h | h)
        · exact hk (by rw [h])
        · exact hnmem h

theorem nodup_keys_pushAssoc {α : Type} {l : List (Nat × List α)}
    (h : (l.map Prod.fst).Nodup) (k : Nat) (v : α) :
    ((pushAssoc l k v).map Prod.fst).Nodup := by
  rcases keys_pushAssoc l k v with ⟨_, heq⟩ | ⟨hnmem, heq⟩
  · rw [heq]; exact h
  · rw [heq, List.nodup_append]
    refine ⟨h, List.nodup_singleton _, ?_⟩
    intro a ha ha'
    rw [List.mem_singleton] at ha'
    subst ha'
    exact hnmem ha

/-- Characterisation of the grouping fold: looking up port `p` in the final
group map yields the accumulated entries followed by this batch's entries for
`p`. -/
theorem groupByPort_fold_lookup (ups : List (String × Nat × Bool)) :
    ∀ (acc : List (Nat × List (Nat × Bool × String))) (p : Nat),
      ((ups.foldl
        (fun acc u =>
          match ipv4_to_index u.1 with
          | some ipIndex => pushAssoc acc u.2.1 (ipIndex, u.2.2, u.1)
          | none => acc)
        acc).lookup p) =
      (match acc.lookup p, portItems ups p with
        | none, [] => none
        | none, its => some its
        | some vs, its => some (vs ++ its)) := by
  induction ups with
  | nil =>
    intro acc p
    simp only [List.foldl_nil, portItems, List.filterMap_nil]
    cases acc.lookup p <;> simp
  | cons u tl ih =>
    intro acc p
    simp only [List.foldl_cons]
    cases hu : ipv4_to_index u.1 with
    | none =>
      rw [ih acc p]
      have hitems : portItems (u :: tl) p = portItems tl p := by
        simp [portItems, List.filterMap_cons, hu]
      rw [hitems]
    | some idx =>
      by_cases hp : u.2.1 = p
      · subst hp
        rw [ih (pushAssoc acc u.2.1 (idx, u.2.2, u.1)) u.2.1,
          lookup_pushAssoc_eq]
        have hitems : portItems (u :: tl) u.2.1 =
            (idx, u.2.2, u.1) :: portItems tl u.2.1 := by
          simp [portItems, List.filterMap_cons, hu]
        rw [hitems]
        cases hacc : acc.lookup u.2.1 <;> cases hrest : portItems tl u.2.1 <;>
          simp
      · rw [ih (pushAssoc acc u.2.1 (idx, u.2.2, u.1)) p,
          lookup_pushAssoc_ne _ (Ne.symm hp)]
        have hitems : portItems (u :: tl) p = portItems tl p := by
          simp only [portItems, List.filterMap_cons, if_neg hp]
        rw [hitems]

/-- Looking up a port in `groupByPort` yields exactly this batch's entries for
that port (and a group exists iff there is at least one entry). -/
theorem groupByPort_lookup (ups : List (String × Nat × Bool)) (p : Nat) :
    (groupByPort ups).lookup p =
      (match portItems ups p with
        | [] => none
        | its => some its) := by
  have h := groupByPort_fold_lookup ups [] p
  simp only [List.lookup] at h
  rw [groupByPort, h]
  cases portItems ups p <;> rfl

theorem groupByPort_keys_nodup (ups : List (String × Nat × Bool)) :
    ((groupByPort ups).map Prod.fst).Nodup := by
  rw [groupByPort]
  generalize hacc : ([] : List (Nat × List (Nat × Bool × String))) = acc
  have hnd : (acc.map Prod.fst).Nodup := by rw [← hacc]; simp
  clear hacc
  induction ups generalizing acc with
  | nil => simpa using hnd
  | cons u tl ih =>
    simp only [List.foldl_cons]
    cases hu : ipv4_to_index u.1 with
    | none => exact ih acc hnd
    | some idx => exact ih _ (nodup_keys_pushAssoc hnd u.2.1 (idx, u.2.2, u.1))

theorem lookup_of_mem_nodup {α : Type} (l : List (Nat × α)) (g : Nat × α)
    (hnd : (l.map Prod.fst).Nodup) (hg : g ∈ l) : l.lookup g.1 = some g.2 := by
  induction l with
  | nil => simp at hg
  | cons hd tl ih =>
    rcases List.mem_cons.mp hg with rfl | hmem
    · exact lookup_cons_eq g.1 g.2 tl
    · have hne : g.1 ≠ hd.1 := by
        intro hcon
        simp only [List.map_cons, List.nodup_cons] at hnd
        exact hnd.1 (hcon ▸ List.mem_map.mpr ⟨g, hmem, rfl⟩)
      rw [lookup_cons_ne hne]
      exact ih (by simp only [List.map_cons, List.nodup_cons] at hnd; exact hnd.2)
        hmem

theorem mem_groupByPort (ups : List (String × Nat × Bool))
    (g : Nat × List (Nat × Bool × String)) (hg : g ∈ groupByPort ups) :
    g.2 = portItems ups g.1 ∧ g.2 ≠ [] := by
  have hl : (groupByPort ups).lookup g.1 = some g.2 :=
    lookup_of_mem_nodup _ g (groupByPort_keys_nodup ups) hg
  rw [groupByPort_lookup] at hl
  revert hl
  cases hits : portItems ups g.1 with
  | nil => intro h; simp at h
  | cons a l =>
    intro h
    simp only [Option.some.injEq] at h
    exact ⟨h.symm, by rw [← h]; simp⟩

/-- Entries of `portItems` come from batch entries whose IP parses to the
stored index. -/
theorem mem_portItems (ups : List (String × Nat × Bool)) (p : Nat)
    (it : Nat × Bool × String) (h : it ∈ portItems ups p) :
    ipv4_to_index it.2.2 = some it.1 ∧ (it.2.2, p, it.2.1) ∈ ups := by
  rcases List.mem_filterMap.mp h with ⟨u, hu, hf⟩
  by_cases hup : u.2.1 = p
  · rw [if_pos hup] at hf
    cases hidx : ipv4_to_index u.1 with
    | none => rw [hidx] at hf; simp at hf
    | some i =>
      rw [hidx] at hf
      simp only [Option.map_some', Option.some.injEq] at hf
      subst hf
      refine ⟨hidx, ?_⟩
      have hu' : u = (u.1, p, u.2.2) := by
        rcases u with ⟨u1, u2, u3⟩
        simp only at hup
        rw [hup]
      rw [← hu']
      exact hu
  · rw [if_neg hup] at hf
    simp at hf

theorem portItems_idx_lt (ups : List (String × Nat × Bool)) (p : Nat)
    (it : Nat × Bool × String) (h : it ∈ portItems ups p) : it.1 < 2 ^ 32 :=
  ipv4_to_index_lt _ _ (mem_portItems ups p it h).1

/-! ### Trace decomposition lemmas -/

theorem applyTrace_append (ops₁ ops₂ : List DbOp) (db : DB) :
    applyTrace (ops₁ ++ ops₂) db = applyTrace ops₂ (applyTrace ops₁ db) := by
  simp [applyTrace, List.foldl_append]

theorem applyTrace_single (op : DbOp) (db : DB) :
    applyTrace [op] db = applyOp db op := rfl

theorem portRoundOutcomes_append (ops₁ ops₂ : List DbOp) (p : Nat) (r : Int) :
    portRoundOutcomes (ops₁ ++ ops₂) p r =
      portRoundOutcomes ops₁ p r ++ portRoundOutcomes ops₂ p r := by
  simp [portRoundOutcomes, traceOutcomes, List.filterMap_append]

theorem bitWrites_append (ops₁ ops₂ : List DbOp) (p : Nat) (r : Int) (i : Nat) :
    bitWrites (ops₁ ++ ops₂) p r i =
      bitWrites ops₁ p r i ++ bitWrites ops₂ p r i := by
  simp [bitWrites, portRoundOutcomes_append, List.filterMap_append]

theorem bitWrites_of_outcomes_nil (ops : List DbOp) (p : Nat) (r : Int)
    (i : Nat) (h : portRoundOutcomes ops p r = []) : bitWrites ops p r i = [] := by
  rw [bitWrites, h]
  rfl

theorem portRoundOutcomes_single (ip : String) (port : Nat) (o : Bool)
    (r : Int) (t : Nat) (p : Nat) (r' : Int) :
    portRoundOutcomes [DbOp.single ip port o r t] p r' =
      (match ipv4_to_index ip with
        | some i => if port = p ∧ r = r' then [(i, o)] else []
        | none => []) := by
  cases hip : ipv4_to_index ip with
  | none => simp [portRoundOutcomes, traceOutcomes, opOutcomes, hip]
  | some i =>
    by_cases hc : port = p ∧ r = r'
    · simp [portRoundOutcomes, traceOutcomes, opOutcomes, hip, hc]
    · simp [portRoundOutcomes, traceOutcomes, opOutcomes, hip, hc]

theorem bitWrites_single (ip : String) (port : Nat) (o : Bool) (r : Int)
    (t : Nat) (p : Nat) (r' : Int) (i : Nat) :
    bitWrites [DbOp.single ip port o r t] p r' i =
      (match ipv4_to_index ip with
        | some idx =>
          if port = p ∧ r = r' then (if idx = i then [o] else []) else []
        | none => []) := by
  rw [bitWrites, portRoundOutcomes_single]
  cases ipv4_to_index ip with
  | none => rfl
  | some idx =>
    show List.filterMap (fun x => if x.1 = i then some x.2 else none)
        (if port = p ∧ r = r' then [(idx, o)] else []) =
      (if port = p ∧ r = r' then (if idx = i then [o] else []) else [])
    by_cases hc : port = p ∧ r = r'
    · rw [if_pos hc, if_pos hc]
      by_cases hidx : idx = i
      · subst hidx; simp
      · simp [hidx]
    · rw [if_neg hc, if_neg hc]
      rfl

theorem filterMap_outcomes (r : Int) (p : Nat) (r' : Int) :
    ∀ ups : List (String × Nat × Bool),
    List.filterMap
        (fun o : Nat × Nat × Int × Bool =>
          if o.2.1 = p ∧ o.2.2.1 = r' then some (o.1, o.2.2.2) else none)
        (List.filterMap
          (fun u => Option.map (fun i => (i, u.2.1, r, u.2.2)) (ipv4_to_index u.1))
          ups) =
      if r' = r then (portItems ups p).map (fun it => (it.1, it.2.1)) else [] := by
  intro ups
  induction ups with
  | nil => by_cases hr : r' = r <;> simp [portItems, hr]
  | cons u tl ih =>
    simp only [List.filterMap_cons]
    cases hu : ipv4_to_index u.1 with
    | none =>
      simp only [Option.map_none']
      rw [ih]
      have hpi : portItems (u :: tl) p = portItems tl p := by
        simp [portItems, List.filterMap_cons, hu]
      rw [hpi]
    | some idx =>
      simp only [Option.map_some']
      by_cases hp : u.2.1 = p
      · by_cases hr : r = r'
        · simp only [List.filterMap_cons, if_pos (And.intro hp hr)]
          rw [ih]
          have hpi : portItems (u :: tl) p = (idx, u.2.2, u.1) :: portItems tl p := by
            simp [portItems, List.filterMap_cons, hu, hp]
          rw [hpi, if_pos hr.symm, List.map_cons, if_pos hr.symm]
        · simp only [List.filterMap_cons,
            if_neg (fun hcon : u.2.1 = p ∧ r = r' => hr hcon.2)]
          rw [ih]
          have hr' : ¬ r' = r := fun hcon => hr hcon.symm
          rw [if_neg hr', if_neg hr']
      · simp only [List.filterMap_cons,
          if_neg (fun hcon : u.2.1 = p ∧ r = r' => hp hcon.1)]
        rw [ih]
        have hpi : portItems (u :: tl) p = portItems tl p := by
          simp [portItems, List.filterMap_cons, hp]
        rw [hpi]

theorem portRoundOutcomes_bulk (ups : List (String × Nat × Bool)) (r : Int)
    (t : Nat) (p : Nat) (r' : Int) :
    portRoundOutcomes [DbOp.bulk ups r t] p r' =
      if r' = r then (portItems ups p).map (fun it => (it.1, it.2.1)) else [] := by
  have hbase : portRoundOutcomes [DbOp.bulk ups r t] p r' =
      (opOutcomes (DbOp.bulk ups r t)).filterMap
        (fun o => if o.2.1 = p ∧ o.2.2.1 = r' then some (o.1, o.2.2.2) else none) := by
    simp [portRoundOutcomes, traceOutcomes]
  rw [hbase, opOutcomes]
  exact filterMap_outcomes r p r' ups

theorem bitWrites_bulk (ups : List (String × Nat × Bool)) (r : Int) (t : Nat)
    (p : Nat) (i : Nat) :
    bitWrites [DbOp.bulk ups r t] p r i =
      (portItems ups p).filterMap
        (fun it => if it.1 = i then some it.2.1 else none) := by
  rw [bitWrites, portRoundOutcomes_bulk, if_pos rfl, List.filterMap_map]
  rfl

/-! ### The detail table as a pure map -/

/-- `open_ports_detail` as a map, for reasoning about the detail upsert fold. -/
def upsertDetailMap (m : String → Nat → Option DetailRow) (ip : String)
    (port : Nat) (round : Int) (now : Nat) : String → Nat → Option DetailRow :=
  fun i p =>
    if i = ip ∧ p = port then
      match m ip port with
      | some old => some { old with scan_round := round, last_seen := now }
      | none => some ⟨"IPv4", round, now, now⟩
    else m i p

theorem upsertDetail_details (db : DB) (ip : String) (port : Nat) (round : Int)
    (now : Nat) :
    (upsertDetail db ip port round now).open_ports_detail =
      upsertDetailMap db.open_ports_detail ip port round now := rfl

theorem upsertDetail_bitmaps (db : DB) (ip : String) (port : Nat) (round : Int)
    (now : Nat) :
    (upsertDetail db ip port round now).port_bitmaps = db.port_bitmaps := rfl

theorem upsertBitmapRow_details (db : DB) (port : Nat) (round : Int)
    (blob : List Nat) (cnt now : Nat) :
    (upsertBitmapRow db port round blob cnt now).open_ports_detail =
      db.open_ports_detail := rfl

/-- The detail-row fold of one port group, on the underlying map. -/
def detailFoldMap (items : List (Nat × Bool × String)) (p₀ : Nat) (r : Int)
    (t : Nat) (m : String → Nat → Option DetailRow) :
    String → Nat → Option DetailRow :=
  items.foldl (fun acc it =>
    if it.2.1 then upsertDetailMap acc it.2.2 p₀ r t else acc) m

theorem detailFold_details (items : List (Nat × Bool × String)) (p₀ : Nat)
    (r : Int) (t : Nat) :
    ∀ db : DB,
    (items.foldl (fun d it =>
        if it.2.1 then upsertDetail d it.2.2 p₀ r t else d) db).open_ports_detail =
      detailFoldMap items p₀ r t db.open_ports_detail := by
  induction items with
  | nil => intro db; rfl
  | cons it tl ih =>
    intro db
    simp only [List.foldl_cons, detailFoldMap]
    cases hop : it.2.1 with
    | true => rw [if_pos rfl, if_pos rfl, ih, detailFoldMap, upsertDetail_details]
    | false => rw [if_neg (by simp), if_neg (by simp), ih, detailFoldMap]

theorem detailFold_bitmaps (items : List (Nat × Bool × String)) (p₀ : Nat)
    (r : Int) (t : Nat) :
    ∀ db : DB,
    (items.foldl (fun d it =>
        if it.2.1 then upsertDetail d it.2.2 p₀ r t else d) db).port_bitmaps =
      db.port_bitmaps := by
  induction items with
  | nil => intro db; rfl
  | cons it tl ih =>
    intro db
    simp only [List.foldl_cons]
    cases hop : it.2.1 with
    | true => rw [if_pos rfl, ih, upsertDetail_bitmaps]
    | false => rw [if_neg (by simp), ih]

/-- How one write step may change a detail cell: untouched, re-observed
(`scan_round`/`last_seen` refreshed), or freshly inserted. -/
def DetailStepMap (m m' : String → Nat → Option DetailRow) (r : Int) (t : Nat) :
    Prop :=
  ∀ ip p,
    m' ip p = m ip p ∨
    (∃ old, m ip p = some old ∧
      m' ip p = some { old with scan_round := r, last_seen := t }) ∨
    (m ip p = none ∧ m' ip p = some ⟨"IPv4", r, t, t⟩)

theorem detailStepMap_refl (m : String → Nat → Option DetailRow) (r : Int)
    (t : Nat) : DetailStepMap m m r t :=
  fun _ _ => Or.inl rfl

theorem detailStepMap_upsert (m : String → Nat → Option DetailRow)
    (ip : String) (port : Nat) (r : Int) (t : Nat) :
    DetailStepMap m (upsertDetailMap m ip port r t) r t := by
  intro i p
  unfold upsertDetailMap
  by_cases h : i = ip ∧ p = port
  · rw [if_pos h]
    obtain ⟨rfl, rfl⟩ := h
    cases hm : m i p with
    | some old => exact Or.inr (Or.inl ⟨old, rfl, rfl⟩)
    | none => exact Or.inr (Or.inr ⟨rfl, rfl⟩)
  · rw [if_neg h]
    exact Or.inl rfl

theorem detailStepMap_trans {m₁ m₂ m₃ : String → Nat → Option DetailRow}
    {r : Int} {t : Nat} (h₁ : DetailStepMap m₁ m₂ r t)
    (h₂ : DetailStepMap m₂ m₃ r t) : DetailStepMap m₁ m₃ r t := by
  intro ip p
  rcases h₂ ip p with h | ⟨old₂, hm₂, hm₃⟩ | ⟨hm₂, hm₃⟩
  · rw [h]; exact h₁ ip p
  · rcases h₁ ip p with h | ⟨old₁, hm₁, hm₂'⟩ | ⟨hm₁, hm₂'⟩
    · rw [h] at hm₂
      exact Or.inr (Or.inl ⟨old₂, hm₂, hm₃⟩)
    · rw [hm₂'] at hm₂
      simp only [Option.some.injEq] at hm₂
      subst hm₂
      exact Or.inr (Or.inl ⟨old₁, hm₁, hm₃⟩)
    · rw [hm₂'] at hm₂
      simp only [Option.some.injEq] at hm₂
      subst hm₂
      exact Or.inr (Or.inr ⟨hm₁, hm₃⟩)
  · rcases h₁ ip p with h | ⟨old₁, hm₁, hm₂'⟩ | ⟨hm₁, hm₂'⟩
    · rw [h] at hm₂
      exact Or.inr (Or.inr ⟨hm₂, hm₃⟩)
    · rw [hm₂'] at hm₂; exact absurd hm₂ (by simp)
    · rw [hm₂'] at hm₂; exact absurd hm₂ (by simp)

theorem detailStepMap_fold (items : List (Nat × Bool × String)) (p₀ : Nat)
    (r : Int) (t : Nat) :
    ∀ m, DetailStepMap m (detailFoldMap items p₀ r t m) r t := by
  induction items with
  | nil => intro m; exact detailStepMap_refl m r t
  | cons it tl ih =>
    intro m
    simp only [detailFoldMap, List.foldl_cons]
    cases hop : it.2.1 with
    | true =>
      rw [if_pos rfl]
      exact detailStepMap_trans (detailStepMap_upsert m it.2.2 p₀ r t) (ih _)
    | false =>
      rw [if_neg (by simp)]
      exact ih m

/-- New detail rows only come from open items of the fold. -/
theorem detailFold_source (items : List (Nat × Bool × String)) (p₀ : Nat)
    (r : Int) (t : Nat) :
    ∀ m ip p, detailFoldMap items p₀ r t m ip p ≠ none →
      m ip p ≠ none ∨ ∃ it ∈ items, it.2.1 = true ∧ it.2.2 = ip ∧ p = p₀ := by
  induction items with
  | nil => intro m ip p h; exact Or.inl h
  | cons it tl ih =>
    intro m ip p h
    simp only [detailFoldMap, List.foldl_cons] at h
    cases hop : it.2.1 with
    | true =>
      rw [if_pos hop] at h
      rcases ih _ ip p h with h' | ⟨it', hit', hprop⟩
      · unfold upsertDetailMap at h'
        by_cases hc : ip = it.2.2 ∧ p = p₀
        · exact Or.inr ⟨it, by simp, hop, hc.1.symm, hc.2⟩
        · rw [if_neg hc] at h'
          exact Or.inl h'
      · exact Or.inr ⟨it', by simp [hit'], hprop⟩
    | false =>
      rw [if_neg (by simp [hop])] at h
      rcases ih _ ip p h with h' | ⟨it', hit', hprop⟩
      · exact Or.inl h'
      · exact Or.inr ⟨it', by simp [hit'], hprop⟩

/-! ### The per-port group write and the group fold -/

theorem get_pbi_congr (db1 db2 : DB) (p : Nat) (r : Int)
    (h : db1.port_bitmaps p r = db2.port_bitmaps p r) :
    get_port_bitmap_internal db1 p r = get_port_bitmap_internal db2 p r := by
  unfold get_port_bitmap_internal
  rw [h]

theorem applyPortGroup_eq (r : Int) (t : Nat) (db : DB)
    (g : Nat × List (Nat × Bool × String)) (B₀ : PortBitmap)
    (hB : get_port_bitmap_internal db g.1 r = some B₀) :
    applyPortGroup r t db g =
      some (g.2.foldl
        (fun d it => if it.2.1 then upsertDetail d it.2.2 g.1 r t else d)
        (upsertBitmapRow db g.1 r
          (g.2.foldl (fun b it => b.set it.1 it.2.1) B₀).to_blob
          (g.2.foldl (fun b it => b.set it.1 it.2.1) B₀).count_ones t)) := by
  unfold applyPortGroup
  rw [hB]

theorem applyPortGroup_bitmaps (r : Int) (t : Nat) (db : DB)
    (g : Nat × List (Nat × Bool × String)) (B₀ : PortBitmap) (db' : DB)
    (hB : get_port_bitmap_internal db g.1 r = some B₀)
    (h : applyPortGroup r t db g = some db') :
    ∀ p r', db'.port_bitmaps p r' =
      if p = g.1 ∧ r' = r then
        some ⟨(g.2.foldl (fun b it => b.set it.1 it.2.1) B₀).to_blob,
          (g.2.foldl (fun b it => b.set it.1 it.2.1) B₀).count_ones, t⟩
      else db.port_bitmaps p r' := by
  rw [applyPortGroup_eq r t db g B₀ hB] at h
  simp only [Option.some.injEq] at h
  subst h
  intro p r'
  rw [detailFold_bitmaps]
  rfl

theorem applyPortGroup_details (r : Int) (t : Nat) (db : DB)
    (g : Nat × List (Nat × Bool × String)) (B₀ : PortBitmap) (db' : DB)
    (hB : get_port_bitmap_internal db g.1 r = some B₀)
    (h : applyPortGroup r t db g = some db') :
    db'.open_ports_detail = detailFoldMap g.2 g.1 r t db.open_ports_detail := by
  rw [applyPortGroup_eq r t db g B₀ hB] at h
  simp only [Option.some.injEq] at h
  subst h
  rw [detailFold_details, upsertBitmapRow_details]

/-- Running the batched writer's per-port loop over a list of groups with
distinct keys: it succeeds, rows of other keys or rounds are untouched, each
group's row holds the folded bitmap, and detail rows change only by upsert. -/
theorem foldGroups_spec (r : Int) (t : Nat) :
    ∀ (groups : List (Nat × List (Nat × Bool × String))) (db : DB),
    ((groups.map Prod.fst).Nodup) →
    (∀ g ∈ groups, get_port_bitmap_internal db g.1 r ≠ none) →
    ∃ db', List.foldlM (applyPortGroup r t) db groups = some db' ∧
      (∀ p r', (p ∉ groups.map Prod.fst ∨ r' ≠ r) →
        db'.port_bitmaps p r' = db.port_bitmaps p r') ∧
      (∀ g ∈ groups, ∀ B₀, get_port_bitmap_internal db g.1 r = some B₀ →
        db'.port_bitmaps g.1 r =
          some ⟨(g.2.foldl (fun b it => b.set it.1 it.2.1) B₀).to_blob,
            (g.2.foldl (fun b it => b.set it.1 it.2.1) B₀).count_ones, t⟩) ∧
      DetailStepMap db.open_ports_detail db'.open_ports_detail r t ∧
      (∀ ip p, db'.open_ports_detail ip p ≠ none →
        db.open_ports_detail ip p ≠ none ∨
          ∃ g ∈ groups, g.1 = p ∧ ∃ it ∈ g.2, it.2.1 = true ∧ it.2.2 = ip) := by
  intro groups
  induction groups with
  | nil =>
    intro db _ _
    refine ⟨db, rfl, fun p r' _ => rfl, by simp, detailStepMap_refl _ _ _, ?_⟩
    intro ip p h
    exact Or.inl h
  | cons g gs ih =>
    intro db hnd hok
    have hkeys : g.1 ∉ gs.map Prod.fst := by
      simp only [List.map_cons, List.nodup_cons] at hnd
      exact hnd.1
    have hndtl : (gs.map Prod.fst).Nodup := by
      simp only [List.map_cons, List.nodup_cons] at hnd
      exact hnd.2
    cases hB : get_port_bitmap_internal db g.1 r with
    | none => exact absurd hB (hok g (by simp))
    | some B₀ =>
      have h1 := applyPortGroup_eq r t db g B₀ hB
      set db1 := (g.2.foldl
        (fun d it => if it.2.1 then upsertDetail d it.2.2 g.1 r t else d)
        (upsertBitmapRow db g.1 r
          (g.2.foldl (fun b it => b.set it.1 it.2.1) B₀).to_blob
          (g.2.foldl (fun b it => b.set it.1 it.2.1) B₀).count_ones t)) with hdb1
      have hbm1 := applyPortGroup_bitmaps r t db g B₀ db1 hB h1
      have hdet1 := applyPortGroup_details r t db g B₀ db1 hB h1
      have htrans : ∀ g' ∈ gs,
          db1.port_bitmaps g'.1 r = db.port_bitmaps g'.1 r := by
        intro g' hg'
        rw [hbm1 g'.1 r, if_neg]
        rintro ⟨hcon, -⟩
        exact hkeys (hcon ▸ List.mem_map.mpr ⟨g', hg', rfl⟩)
      have hok' : ∀ g' ∈ gs, get_port_bitmap_internal db1 g'.1 r ≠ none := by
        intro g' hg'
        rw [get_pbi_congr db1 db g'.1 r (htrans g' hg')]
        exact hok g' (by simp [hg'])
      obtain ⟨db', hfold, huntouched, hchar, hdstep, hsource⟩ := ih db1 hndtl hok'
      refine ⟨db', ?_, ?_, ?_, ?_, ?_⟩
      · simp only [List.foldlM_cons, h1]
        exact hfold
      · intro p r' hc
        have hc' : p ∉ gs.map Prod.fst ∨ r' ≠ r := by
          rcases hc with hc | hc
          · exact Or.inl (fun hmem => hc (by simp [hmem]))
          · exact Or.inr hc
        rw [huntouched p r' hc', hbm1 p r', if_neg]
        rintro ⟨hcon, hcon'⟩
        rcases hc with hc | hc
        · exact hc (by simp [hcon])
        · exact hc hcon'
      · intro g'' hg'' B₀'' hB''
        rcases List.mem_cons.mp hg'' with rfl | hmem
        · have hBeq : B₀'' = B₀ := by
            rw [hB] at hB''
            simpa using hB''.symm
          subst hBeq
          rw [huntouched g''.1 r (Or.inl hkeys), hbm1 g''.1 r, if_pos ⟨rfl, rfl⟩]
        · have hB1 : get_port_bitmap_internal db1 g''.1 r = some B₀'' := by
            rw [get_pbi_congr db1 db g''.1 r (htrans g'' hmem)]
            exact hB''
          exact hchar g'' hmem B₀'' hB1
      · have hstep1 : DetailStepMap db.open_ports_detail db1.open_ports_detail
            r t := by
          rw [hdet1]
          exact detailStepMap_fold g.2 g.1 r t _
        exact detailStepMap_trans hstep1 hdstep
      · intro ip p h
        rcases hsource ip p h with h' | ⟨g'', hg'', hprop⟩
        · rw [hdet1] at h'
          rcases detailFold_source g.2 g.1 r t _ ip p h' with h'' | ⟨it, hit, hprop⟩
          · exact Or.inl h''
          · exact Or.inr ⟨g, by simp, hprop.2.2.symm, it, hit, hprop.1, hprop.2.1⟩
        · exact Or.inr ⟨g'', by simp [hg''], hprop⟩

/-! ### The bitmap-row invariant over scan histories -/

/-- What one `port_bitmaps` cell must look like after a trace: a missing row
means no outcome ever targeted `(p, r)`; a present row stores the serialised
bitmap of some well-formed `B` together with its population count, and each
bit of `B` is the last value written to it. -/
def RowCell (ops : List DbOp) (p : Nat) (r : Int) : Option BitmapRow → Prop
  | none => portRoundOutcomes ops p r = []
  | some row => ∃ B : PortBitmap, SegWF B ∧ row.bitmap = B.to_blob ∧
      row.open_count = B.count_ones ∧ portRoundOutcomes ops p r ≠ [] ∧
      ∀ i, i < 2 ^ 32 → B.get i = (bitWrites ops p r i).getLast?.getD false

def RowInv (ops : List DbOp) (db : DB) : Prop :=
  ∀ p r, RowCell ops p r (db.port_bitmaps p r)

theorem rowCell_congr (ops₁ ops₂ : List DbOp) (p : Nat) (r : Int)
    (row? : Option BitmapRow)
    (hpro : portRoundOutcomes ops₂ p r = portRoundOutcomes ops₁ p r)
    (hbw : ∀ i, bitWrites ops₂ p r i = bitWrites ops₁ p r i)
    (h : RowCell ops₁ p r row?) : RowCell ops₂ p r row? := by
  cases row? with
  | none =>
    have h' : portRoundOutcomes ops₁ p r = [] := h
    show portRoundOutcomes ops₂ p r = []
    rw [hpro]
    exact h'
  | some row =>
    obtain ⟨B, h1, h2, h3, h4, h5⟩ := h
    exact ⟨B, h1, h2, h3, by rw [hpro]; exact h4,
      fun i hi => by rw [hbw i]; exact h5 i hi⟩

/-- Extract from the invariant a parsed bitmap for any cell, with its bit
history. -/
theorem rowInv_get (ops : List DbOp) (db : DB) (h : RowInv ops db) (port : Nat)
    (r : Int) :
    ∃ B₀, get_port_bitmap_internal db port r = some B₀ ∧ SegWF B₀ ∧
      ∀ i, i < 2 ^ 32 → B₀.get i = (bitWrites ops port r i).getLast?.getD false := by
  have hx := h port r
  cases hrow : db.port_bitmaps port r with
  | none =>
    rw [hrow] at hx
    have hx' : portRoundOutcomes ops port r = [] := hx
    refine ⟨PortBitmap.new, ?_, segWF_new, ?_⟩
    · unfold get_port_bitmap_internal
      rw [hrow]
    · intro i _
      rw [bitWrites_of_outcomes_nil _ _ _ _ hx', get_new]
      rfl
  | some row =>
    rw [hrow] at hx
    obtain ⟨B, hWF, hblob, _, _, hbits⟩ := hx
    refine ⟨B, ?_, hWF, hbits⟩
    unfold get_port_bitmap_internal
    rw [hrow]
    show PortBitmap.from_blob row.bitmap = some B
    rw [hblob, from_blob_to_blob B hWF.blobWF]

theorem rowInv_empty : RowInv [] emptyDB := by
  intro p r
  show portRoundOutcomes [] p r = []
  rfl

theorem rowInv_step (ops : List DbOp) (db : DB) (h : RowInv ops db)
    (op : DbOp) : RowInv (ops ++ [op]) (applyOp db op) := by
  cases op with
  | single ip port o r t =>
    cases hip : ipv4_to_index ip with
    | none =>
      have happ : applyOp db (.single ip port o r t) = db := by
        simp [applyOp, set_port_status, hip]
      rw [happ]
      intro p r'
      refine rowCell_congr ops _ p r' _ ?_ ?_ (h p r')
      · simp only [portRoundOutcomes_append, portRoundOutcomes_single, hip,
          List.append_nil]
      · intro i
        simp only [bitWrites_append, bitWrites_single, hip, List.append_nil]
    | some idx =>
      obtain ⟨B₀, hB₀, hWF₀, hbits₀⟩ := rowInv_get ops db h port r
      have hidxlt := ipv4_to_index_lt ip idx hip
      have hpb : ∀ p r', (applyOp db (.single ip port o r t)).port_bitmaps p r' =
          if p = port ∧ r' = r then
            some ⟨(B₀.set idx o).to_blob, (B₀.set idx o).count_ones, t⟩
          else db.port_bitmaps p r' := by
        intro p r'
        have happ : applyOp db (.single ip port o r t) =
            (if o then
              upsertDetail (upsertBitmapRow db port r (B₀.set idx o).to_blob
                (B₀.set idx o).count_ones t) ip port r t
             else upsertBitmapRow db port r (B₀.set idx o).to_blob
                (B₀.set idx o).count_ones t) := by
          simp [applyOp, set_port_status, hip, hB₀]
        rw [happ]
        cases o with
        | true => rw [if_pos rfl, upsertDetail_bitmaps]; rfl
        | false => rw [if_neg Bool.false_ne_true]; rfl
      intro p r'
      by_cases hc : p = port ∧ r' = r
      · obtain ⟨rfl, rfl⟩ := hc
        rw [show (applyOp db (.single ip p o r' t)).port_bitmaps p r' =
            some ⟨(B₀.set idx o).to_blob, (B₀.set idx o).count_ones, t⟩ from by
          rw [hpb p r', if_pos ⟨rfl, rfl⟩]]
        refine ⟨B₀.set idx o, segWF_set hWF₀ idx hidxlt o, rfl, rfl, ?_, ?_⟩
        · simp [portRoundOutcomes_append, portRoundOutcomes_single, hip]
        · intro i hi
          rw [get_set hWF₀ hidxlt hi o]
          simp only [bitWrites_append, bitWrites_single, hip,
            eq_self_iff_true, and_self, if_true]
          by_cases hii : i = idx
          · subst hii
            rw [if_pos rfl, if_pos rfl, getLast?_getD_append]
            simp
          · rw [if_neg hii, if_neg (fun hcon => hii hcon.symm),
              List.append_nil]
            exact hbits₀ i hi
      · rw [show (applyOp db (.single ip port o r t)).port_bitmaps p r' =
            db.port_bitmaps p r' from by rw [hpb p r', if_neg hc]]
        refine rowCell_congr ops _ p r' _ ?_ ?_ (h p r')
        · simp only [portRoundOutcomes_append, portRoundOutcomes_single, hip]
          rw [if_neg (fun hcon : port = p ∧ r = r' =>
              hc ⟨hcon.1.symm, hcon.2.symm⟩), List.append_nil]
        · intro i
          simp only [bitWrites_append, bitWrites_single, hip]
          rw [if_neg (fun hcon : port = p ∧ r = r' =>
              hc ⟨hcon.1.symm, hcon.2.symm⟩), List.append_nil]
  | bulk ups r t =>
    cases ups with
    | nil =>
      have happ : applyOp db (.bulk [] r t) = db := by
        simp [applyOp, bulk_update_port_status]
      rw [happ]
      intro p r'
      refine rowCell_congr ops _ p r' _ ?_ ?_ (h p r')
      · rw [portRoundOutcomes_append, portRoundOutcomes_bulk]
        by_cases hr' : r' = r <;> simp [hr', portItems]
      · intro i
        have hb : bitWrites [DbOp.bulk [] r t] p r' i = [] := by
          rw [bitWrites, portRoundOutcomes_bulk]
          by_cases hr' : r' = r <;> simp [hr', portItems]
        rw [bitWrites_append, hb, List.append_nil]
    | cons u0 utl =>
      have hok : ∀ g ∈ groupByPort (u0 :: utl),
          get_port_bitmap_internal db g.1 r ≠ none := by
        intro g _
        obtain ⟨B₀, hB₀, _, _⟩ := rowInv_get ops db h g.1 r
        rw [hB₀]
        simp
      obtain ⟨db', hfold, huntouched, hchar, _, _⟩ :=
        foldGroups_spec r t (groupByPort (u0 :: utl)) db
          (groupByPort_keys_nodup _) hok
      have happ : applyOp db (.bulk (u0 :: utl) r t) = db' := by
        simp only [applyOp, bulk_update_port_status, List.isEmpty_cons,
          if_neg Bool.false_ne_true, hfold, Option.getD_some]
      rw [happ]
      intro p r'
      by_cases hr' : r' = r
      · subst hr'
        by_cases hpi : portItems (u0 :: utl) p = []
        · have hnk : p ∉ (groupByPort (u0 :: utl)).map Prod.fst := by
            intro hmem
            rcases List.mem_map.mp hmem with ⟨g, hg, rfl⟩
            exact (mem_groupByPort _ g hg).2
              (((mem_groupByPort _ g hg).1).trans hpi)
          rw [huntouched p r' (Or.inl hnk)]
          refine rowCell_congr ops _ p r' _ ?_ ?_ (h p r')
          · rw [portRoundOutcomes_append, portRoundOutcomes_bulk, if_pos rfl,
              hpi, List.map_nil, List.append_nil]
          · intro i
            rw [bitWrites_append, bitWrites_bulk, hpi, List.filterMap_nil,
              List.append_nil]
        · have hlk : (groupByPort (u0 :: utl)).lookup p =
              some (portItems (u0 :: utl) p) := by
            rw [groupByPort_lookup]
            cases hpi' : portItems (u0 :: utl) p with
            | nil => exact absurd hpi' hpi
            | cons a l => rfl
          have hg : (p, portItems (u0 :: utl) p) ∈ groupByPort (u0 :: utl) :=
            lookup_mem _ _ _ hlk
          obtain ⟨B₀, hB₀, hWF₀, hbits₀⟩ := rowInv_get ops db h p r'
          have hrow' := hchar (p, portItems (u0 :: utl) p) hg B₀ hB₀
          rw [hrow']
          have hidxlt : ∀ it ∈ portItems (u0 :: utl) p, it.1 < 2 ^ 32 :=
            fun it hit => portItems_idx_lt _ p it hit
          refine ⟨_, segWF_foldl_set hWF₀ hidxlt, rfl, rfl, ?_, ?_⟩
          · rw [portRoundOutcomes_append, portRoundOutcomes_bulk, if_pos rfl]
            simp [hpi]
          · intro i hi
            rw [get_foldl_set hWF₀ hidxlt hi, bitWrites_append,
              bitWrites_bulk, getLast?_getD_append, hbits₀ i hi]
      · rw [huntouched p r' (Or.inr hr')]
        refine rowCell_congr ops _ p r' _ ?_ ?_ (h p r')
        · rw [portRoundOutcomes_append, portRoundOutcomes_bulk, if_neg hr',
            List.append_nil]
        · intro i
          have hb : bitWrites [DbOp.bulk (u0 :: utl) r t] p r' i = [] := by
            rw [bitWrites, portRoundOutcomes_bulk, if_neg hr']
            rfl
          rw [bitWrites_append, hb, List.append_nil]

/-- The bitmap-row invariant holds after any scan history. -/
theorem rowInv_trace (ops : List DbOp) : RowInv ops (applyTrace ops emptyDB) := by
  induction ops using List.reverseRecOn with
  | nil => exact rowInv_empty
  | append_singleton ops op ih =>
    rw [applyTrace_append, applyTrace_single]
    exact rowInv_step ops _ ih op

/-! ### Detail-table behaviour of the write operations -/

def opRound : DbOp → Int
  | .single _ _ _ r _ => r
  | .bulk _ r _ => r

theorem foldGroups_detailStep (r : Int) (t : Nat) :
    ∀ (groups : List (Nat × List (Nat × Bool × String))) (db db' : DB),
    List.foldlM (applyPortGroup r t) db groups = some db' →
    DetailStepMap db.open_ports_detail db'.open_ports_detail r t := by
  intro groups
  induction groups with
  | nil =>
    intro db db' h
    have h' : db = db' := by simpa using h
    subst h'
    exact detailStepMap_refl _ _ _
  | cons g gs ih =>
    intro db db' h
    simp only [List.foldlM_cons] at h
    cases happ : applyPortGroup r t db g with
    | none => rw [happ] at h; exact absurd h (by simp)
    | some db1 =>
      rw [happ] at h
      have h : List.foldlM (applyPortGroup r t) db1 gs = some db' := h
      have hB : ∃ B₀, get_port_bitmap_internal db g.1 r = some B₀ := by
        by_contra hcon
        push_neg at hcon
        cases hget : get_port_bitmap_internal db g.1 r with
        | none => unfold applyPortGroup at happ; rw [hget] at happ; simp at happ
        | some B => exact hcon B hget
      obtain ⟨B₀, hB₀⟩ := hB
      have hdet1 := applyPortGroup_details r t db g B₀ db1 hB₀ happ
      have hstep1 : DetailStepMap db.open_ports_detail db1.open_ports_detail
          r t := by
        rw [hdet1]
        exact detailStepMap_fold g.2 g.1 r t _
      exact detailStepMap_trans hstep1 (ih db1 db' h)

theorem foldGroups_detailSource (r : Int) (t : Nat) :
    ∀ (groups : List (Nat × List (Nat × Bool × String))) (db db' : DB),
    List.foldlM (applyPortGroup r t) db groups = some db' →
    ∀ ip p, db'.open_ports_detail ip p ≠ none →
      db.open_ports_detail ip p ≠ none ∨
        ∃ g ∈ groups, g.1 = p ∧ ∃ it ∈ g.2, it.2.1 = true ∧ it.2.2 = ip := by
  intro groups
  induction groups with
  | nil =>
    intro db db' h
    have h' : db = db' := by simpa using h
    subst h'
    exact fun ip p hip => Or.inl hip
  | cons g gs ih =>
    intro db db' h ip p hip
    simp only [List.foldlM_cons] at h
    cases happ : applyPortGroup r t db g with
    | none => rw [happ] at h; exact absurd h (by simp)
    | some db1 =>
      rw [happ] at h
      have h : List.foldlM (applyPortGroup r t) db1 gs = some db' := h
      have hB : ∃ B₀, get_port_bitmap_internal db g.1 r = some B₀ := by
        by_contra hcon
        push_neg at hcon
        cases hget : get_port_bitmap_internal db g.1 r with
        | none => unfold applyPortGroup at happ; rw [hget] at happ; simp at happ
        | some B => exact hcon B hget
      obtain ⟨B₀, hB₀⟩ := hB
      have hdet1 := applyPortGroup_details r t db g B₀ db1 hB₀ happ
      rcases ih db1 db' h ip p hip with h1 | ⟨g', hg', hprop⟩
      · rw [hdet1] at h1
        rcases detailFold_source g.2 g.1 r t _ ip p h1 with h2 | ⟨it, hit, hprop⟩
        · exact Or.inl h2
        · exact Or.inr ⟨g, by simp, hprop.2.2.symm, it, hit, hprop.1, hprop.2.1⟩
      · exact Or.inr ⟨g', by simp [hg'], hprop⟩

/-- Each write changes detail cells only by leaving them, refreshing
`scan_round`/`last_seen`, or inserting a fresh row at its own instant. -/
theorem applyOp_detailStep (db : DB) (op : DbOp) :
    DetailStepMap db.open_ports_detail (applyOp db op).open_ports_detail
      (opRound op) (opTime op) := by
  cases op with
  | single ip port o r t =>
    show DetailStepMap db.open_ports_detail
      ((set_port_status db ip port o r t).getD db).open_ports_detail r t
    cases hip : ipv4_to_index ip with
    | none =>
      unfold set_port_status
      rw [hip]
      exact detailStepMap_refl _ _ _
    | some idx =>
      unfold set_port_status
      rw [hip]
      cases hB : get_port_bitmap_internal db port r with
      | none => exact detailStepMap_refl _ _ _
      | some B₀ =>
        cases o with
        | true =>
          simp only [Option.getD_some, if_pos rfl, upsertDetail_details,
            upsertBitmapRow_details]
          exact detailStepMap_upsert _ ip port r t
        | false =>
          simp only [Option.getD_some, if_neg Bool.false_ne_true]
          exact detailStepMap_refl _ _ _
  | bulk ups r t =>
    show DetailStepMap db.open_ports_detail
      ((bulk_update_port_status db ups r t).getD db).open_ports_detail r t
    unfold bulk_update_port_status
    by_cases hemp : ups.isEmpty
    · rw [if_pos hemp]
      exact detailStepMap_refl _ _ _
    · rw [if_neg hemp]
      cases hfold : List.foldlM (applyPortGroup r t) db (groupByPort ups) with
      | none => exact detailStepMap_refl _ _ _
      | some db' =>
        rw [Option.getD_some]
        exact foldGroups_detailStep r t (groupByPort ups) db db' hfold

/-- A detail row can only appear because some op recorded an open outcome for
its `(ip, port)`. -/
theorem applyOp_detailSource (db : DB) (op : DbOp) :
    ∀ ip p, (applyOp db op).open_ports_detail ip p ≠ none →
      db.open_ports_detail ip p ≠ none ∨
        ∃ idx, ipv4_to_index ip = some idx ∧
          (idx, p, opRound op, true) ∈ opOutcomes op := by
  cases op with
  | single ip₀ port o r t =>
    intro ip p hip
    have hip' : ((set_port_status db ip₀ port o r t).getD db).open_ports_detail
        ip p ≠ none := hip
    cases hip0 : ipv4_to_index ip₀ with
    | none =>
      unfold set_port_status at hip'
      rw [hip0] at hip'
      exact Or.inl hip'
    | some idx =>
      unfold set_port_status at hip'
      rw [hip0] at hip'
      cases hB : get_port_bitmap_internal db port r with
      | none => rw [hB] at hip'; exact Or.inl hip'
      | some B₀ =>
        rw [hB] at hip'
        cases o with
        | true =>
          simp only [Option.getD_some, eq_self_iff_true, if_true,
            upsertDetail_details, upsertBitmapRow_details] at hip'
          unfold upsertDetailMap at hip'
          by_cases hc : ip = ip₀ ∧ p = port
          · obtain ⟨rfl, rfl⟩ := hc
            refine Or.inr ⟨idx, hip0, ?_⟩
            simp [opOutcomes, opRound, hip0]
          · rw [if_neg hc] at hip'
            exact Or.inl hip'
        | false =>
          simp only [Option.getD_some, if_neg Bool.false_ne_true] at hip'
          exact Or.inl hip'
  | bulk ups r t =>
    intro ip p hip
    have hip' : ((bulk_update_port_status db ups r t).getD db).open_ports_detail
        ip p ≠ none := hip
    unfold bulk_update_port_status at hip'
    by_cases hemp : ups.isEmpty
    · rw [if_pos hemp] at hip'
      exact Or.inl hip'
    · rw [if_neg hemp] at hip'
      cases hfold : List.foldlM (applyPortGroup r t) db (groupByPort ups) with
      | none => rw [hfold] at hip'; exact Or.inl hip'
      | some db' =>
        rw [hfold, Option.getD_some] at hip'
        rcases foldGroups_detailSource r t (groupByPort ups) db db' hfold ip p
            hip' with h1 | ⟨g, hg, hgp, it, hit, hopen, hit2⟩
        · exact Or.inl h1
        · have hmem := (mem_groupByPort ups g hg).1
          rw [hmem] at hit
          obtain ⟨hparse, hups⟩ := mem_portItems ups g.1 it hit
          refine Or.inr ⟨it.1, by rw [← hit2]; exact hparse, ?_⟩
          show (it.1, p, r, true) ∈ opOutcomes (DbOp.bulk ups r t)
          refine List.mem_filterMap.mpr ⟨(it.2.2, g.1, it.2.1), hups, ?_⟩
          rw [hparse, hgp, hopen]
          rfl

theorem traceOutcomes_append (ops₁ ops₂ : List DbOp) :
    traceOutcomes (ops₁ ++ ops₂) = traceOutcomes ops₁ ++ traceOutcomes ops₂ := by
  simp [traceOutcomes]

/-- Detail rows only exist for parsed IPs with a recorded open outcome. -/
theorem detail_source_trace (ops : List DbOp) :
    ∀ ip p, (applyTrace ops emptyDB).open_ports_detail ip p ≠ none →
      ∃ idx r, ipv4_to_index ip = some idx ∧
        (idx, p, r, true) ∈ traceOutcomes ops := by
  induction ops using List.reverseRecOn with
  | nil => intro ip p h; exact absurd rfl h
  | append_singleton ops op ih =>
    intro ip p h
    rw [applyTrace_append, applyTrace_single] at h
    rcases applyOp_detailSource (applyTrace ops emptyDB) op ip p h with
      h1 | ⟨idx, hparse, hmem⟩
    · obtain ⟨idx, r, hparse, hmem⟩ := ih ip p h1
      exact ⟨idx, r, hparse, by
        rw [traceOutcomes_append]
        exact List.mem_append_left _ hmem⟩
    · exact ⟨idx, opRound op, hparse, by
        rw [traceOutcomes_append]
        refine List.mem_append_right _ ?_
        simpa [traceOutcomes] using hmem⟩

/-! ### Timestamp well-formedness of detail rows -/

def DetailWF (m : String → Nat → Option DetailRow) (T : Nat) : Prop :=
  ∀ ip p row, m ip p = some row →
    row.first_seen ≤ row.last_seen ∧ row.last_seen ≤ T

theorem detailStep_wf {m m' : String → Nat → Option DetailRow} {r : Int}
    {t : Nat} (hstep : DetailStepMap m m' r t) {T : Nat} (hwf : DetailWF m T)
    (hT : T ≤ t) : DetailWF m' t := by
  intro ip p row h
  rcases hstep ip p with heq | ⟨old, hmo, hmn⟩ | ⟨hmo, hmn⟩
  · rw [heq] at h
    obtain ⟨h1, h2⟩ := hwf ip p row h
    exact ⟨h1, le_trans h2 hT⟩
  · rw [hmn] at h
    simp only [Option.some.injEq] at h
    subst h
    obtain ⟨h1, h2⟩ := hwf ip p old hmo
    exact ⟨le_trans h1 (le_trans h2 hT), le_refl t⟩
  · rw [hmn] at h
    simp only [Option.some.injEq] at h
    subst h
    exact ⟨le_refl t, le_refl t⟩

theorem getLast?_getD_cons {α : Type} (a : α) (l : List α) (d : α) :
    (a :: l).getLast?.getD d = l.getLast?.getD a := by
  have h := getLast?_getD_append [a] l d
  simpa using h

theorem detail_trace_wf (ops : List DbOp) :
    ∀ (db : DB) (T : Nat), DetailWF db.open_ports_detail T →
    List.Chain' (· ≤ ·) (T :: ops.map opTime) →
    DetailWF (applyTrace ops db).open_ports_detail
      ((ops.map opTime).getLast?.getD T) := by
  induction ops with
  | nil => intro db T hwf _; exact hwf
  | cons op ops ih =>
    intro db T hwf hchain
    rw [List.map_cons, List.chain'_cons] at hchain
    have hwf1 : DetailWF (applyOp db op).open_ports_detail (opTime op) :=
      detailStep_wf (applyOp_detailStep db op) hwf hchain.1
    have := ih (applyOp db op) (opTime op) hwf1 hchain.2
    rw [List.map_cons, getLast?_getD_cons]
    exact this

/-! ### Remaining helper lemmas -/

theorem groupByPort_filter_valid (ups : List (String × Nat × Bool)) :
    groupByPort (ups.filter (fun u => (ipv4_to_index u.1).isSome)) =
      groupByPort ups := by
  unfold groupByPort
  suffices h : ∀ acc : List (Nat × List (Nat × Bool × String)),
      (ups.filter (fun u => (ipv4_to_index u.1).isSome)).foldl
        (fun acc u =>
          match ipv4_to_index u.1 with
          | some ipIndex => pushAssoc acc u.2.1 (ipIndex, u.2.2, u.1)
          | none => acc) acc =
      ups.foldl
        (fun acc u =>
          match ipv4_to_index u.1 with
          | some ipIndex => pushAssoc acc u.2.1 (ipIndex, u.2.2, u.1)
          | none => acc) acc by
    exact h []
  induction ups with
  | nil => intro acc; rfl
  | cons u tl ih =>
    intro acc
    cases hu : ipv4_to_index u.1 with
    | none =>
      have hfil : (u :: tl).filter (fun u => (ipv4_to_index u.1).isSome) =
          tl.filter (fun u => (ipv4_to_index u.1).isSome) := by
        rw [List.filter_cons, if_neg (by simp [hu])]
      rw [hfil, ih acc, List.foldl_cons]
      have : (match ipv4_to_index u.1 with
          | some ipIndex => pushAssoc acc u.2.1 (ipIndex, u.2.2, u.1)
          | none => acc) = acc := by rw [hu]
      rw [this]
    | some idx =>
      have hfil : (u :: tl).filter (fun u => (ipv4_to_index u.1).isSome) =
          u :: tl.filter (fun u => (ipv4_to_index u.1).isSome) := by
        rw [List.filter_cons, if_pos (by simp [hu])]
      rw [hfil, List.foldl_cons, List.foldl_cons, ih]

theorem mapM_option_to_except : ∀ (l : List (List Char)) (ps : List Nat),
    l.mapM (fun x => parseU16 (trimChars x)) = some ps →
    (l.mapM (fun s => match parseU16 (trimChars s) with
      | some p => Except.ok p
      | none => Except.error ("Invalid port: " ++ String.mk s)) :
        Except String (List Nat)) = Except.ok ps := by
  intro l
  induction l with
  | nil =>
    intro ps h
    have h' : ([] : List Nat) = ps := Option.some.inj h
    subst h'
    rfl
  | cons x tl ih =>
    intro ps h
    rw [List.mapM_cons] at h ⊢
    cases hx : parseU16 (trimChars x) with
    | none => rw [hx] at h; simp at h
    | some p =>
      rw [hx] at h
      simp only [Option.pure_def, Option.bind_eq_bind, Option.some_bind] at h
      cases htl : tl.mapM (fun x => parseU16 (trimChars x)) with
      | none => rw [htl] at h; simp at h
      | some ps' =>
        rw [htl] at h
        simp only [Option.some_bind, Option.some.injEq] at h
        subst h
        rw [ih ps' htl]
        rfl

theorem and_syn_ack_iff :
    ∀ f, f < 512 → ((f &&& 18 = 18) ↔ (f.testBit 1 ∧ f.testBit 4)) := by
  decide

/-! ## The claims -/

/-- Claim C1 (code_bug evaluation): the rate limiter does not enforce the
bound.  `acquire` runs `let _ = self.semaphore.acquire().await`, binding the
returned `SemaphorePermit` to `_`; the permit is dropped at once and dropping
returns it to the semaphore, so no call ever consumes a permit.  With
`max_rate = 5` and a 100-unit window, six `acquire()` calls at instant 0 —
all inside one window — all complete without blocking, exceeding
`max_rate × 1.05 = 5.25` (the claim allows at most 5 completed acquisitions
per window and demands that the sixth block until the window elapses). -/
theorem claim_C1_rate_limiter_over_admits :
    runAcquires 5 100 (rateLimiterInit 5 0) (List.replicate 6 0) =
      some (rateLimiterInit 5 0) ∧ ¬ (6 ≤ 5 * 105 / 100) := by
  constructor
  · rfl
  · decide

/-- Claim C2 counterexample: with a persisted resume cursor
`("5.5.5.5", "IPv4", 3)` and a caller-supplied start IP `"9.9.9.9"` (end
`"9.9.9.200"`), `run_scanner_logic` starts enumerating at the persisted
`"5.5.5.5"`, not at the configured `"9.9.9.9"` as the claim states: the
resume cursor takes precedence over the caller's override. -/
theorem claim_C2_counterexample :
    actual_start_ip (some "9.9.9.9") (some "9.9.9.200")
        (initResume (some ("5.5.5.5", "IPv4", 3))) = "5.5.5.5" ∧
    ¬ actual_start_ip (some "9.9.9.9") (some "9.9.9.200")
        (initResume (some ("5.5.5.5", "IPv4", 3))) = "9.9.9.9" := by
  constructor
  · rfl
  · decide

/-- Claim C2 (amended): on scan start, if a resume cursor
`(ip, "IPv4", round)` is persisted, the producer begins enumerating at the
persisted `ip` regardless of any caller-supplied start IP, and the current
round is the persisted `round` without incrementing; with no persisted
cursor, the producer begins at the configured start IP (the default range
starting at `0.0.0.0` when start and end are not both given) and the round
is 1. -/
theorem claim_C2_amended (ip : String) (round : Int)
    (argsStart argsEnd : Option String) :
    (initResume (some (ip, "IPv4", round))).current_round = round ∧
    actual_start_ip argsStart argsEnd (initResume (some (ip, "IPv4", round))) =
      ip ∧
    (initResume none).current_round = 1 ∧
    actual_start_ip argsStart argsEnd (initResume none) =
      (startEndIp argsStart argsEnd).1 ∧
    startEndIp none argsEnd = get_default_ipv4_range := by
  refine ⟨rfl, ?_, rfl, ?_, ?_⟩
  · simp [actual_start_ip, initResume]
  · simp [actual_start_ip, initResume]
  · cases argsEnd <;> rfl

/-- Claim C7: in SYN mode (the Linux L4 receiver) an outcome
`(src_ip, src_port, true)` is emitted for an inbound TCP segment exactly when
both the SYN flag (bit 1) and the ACK flag (bit 4) are set after masking with
`SYN|ACK`; every other flag combination — including a lone RST — produces no
outcome, and every emitted outcome carries `open = true`. -/
theorem claim_C7_syn_receiver (srcIp : String) (srcPort : Nat) (flags : Nat)
    (hflags : flags < 512) :
    (syn_receiver_outcome srcIp srcPort flags =
        some (srcIp, srcPort, true) ↔ (flags.testBit 1 ∧ flags.testBit 4)) ∧
    (∀ o, syn_receiver_outcome srcIp srcPort flags = some o →
      o = (srcIp, srcPort, true)) ∧
    syn_receiver_outcome srcIp srcPort TCP_RST = none := by
  have h18 : (TCP_SYN ||| TCP_ACK : Nat) = 18 := by decide
  refine ⟨?_, ?_, ?_⟩
  · unfold syn_receiver_outcome
    rw [h18]
    by_cases hc : flags &&& 18 = 18
    · rw [if_pos hc]
      simp only [Option.some.injEq, true_iff]
      exact (and_syn_ack_iff flags hflags).mp hc
    · rw [if_neg hc]
      constructor
      · intro h
        exact absurd h (by simp)
      · intro h
        exact absurd ((and_syn_ack_iff flags hflags).mpr h) hc
  · intro o h
    unfold syn_receiver_outcome at h
    by_cases hc : flags &&& (TCP_SYN ||| TCP_ACK) = TCP_SYN ||| TCP_ACK
    · rw [if_pos hc] at h
      simpa using h.symm
    · rw [if_neg hc] at h
      exact absurd h (by simp)
  · rfl

/-- Witness for C7 at the concrete segment flags `SYN|ACK = 18` from
198.51.100.7:443. -/
theorem claim_C7_syn_receiver_witness :
    syn_receiver_outcome "198.51.100.7" 443 18 =
      some ("198.51.100.7", 443, true) :=
  (claim_C7_syn_receiver "198.51.100.7" 443 18 (by decide)).1.mpr (by decide)

/-- Claim C8: for IPv4 addresses with `start ≤ end`, the address iterator
yields exactly `u32(end) − u32(start) + 1` addresses, in strictly increasing
numeric order, and then terminates: with any sufficient fuel the run is the
same finite list `range' start (end − start + 1)`. -/
theorem claim_C8_ip_iterator (start endIp : Nat) (h1 : start ≤ endIp)
    (h2 : endIp < 2 ^ 32) :
    ∀ fuel, endIp - start < fuel →
      runIter fuel ⟨start, endIp, false⟩ =
        List.range' start (endIp - start + 1) ∧
      (runIter fuel ⟨start, endIp, false⟩).length = endIp - start + 1 ∧
      List.Pairwise (· < ·) (runIter fuel ⟨start, endIp, false⟩) := by
  intro fuel hf
  have hrun := runIter_spec endIp h2 fuel start h1 hf
  refine ⟨hrun, ?_, ?_⟩
  · rw [hrun]
    exact List.length_range' start 1 (endIp - start + 1)
  · rw [hrun]
    exact List.pairwise_lt_range' start (endIp - start + 1) 1 (by omega)

/-- Witness for C8 on the range 5..7 (three addresses). -/
theorem claim_C8_ip_iterator_witness :
    runIter 3 ⟨5, 7, false⟩ = List.range' 5 (7 - 5 + 1) :=
  (claim_C8_ip_iterator 5 7 (by decide) (by norm_num) 3 (by decide)).1

/-- Claim C9: deserialising the serialisation of a bitmap yields it back
bit-for-bit (`from_blob (to_blob b) = b`), for every bitmap whose segment
count, segment ids and segment lengths fit their wire-format integer widths;
and a missing segment reads as all-zero (`get` is false whenever the
segment is absent). -/
theorem claim_C9_blob_roundtrip (b : PortBitmap) (h : BlobWF b) :
    PortBitmap.from_blob b.to_blob = some b ∧
    (∀ i, b.segments.lookup (i >>> 24) = none → b.get i = false) := by
  refine ⟨from_blob_to_blob b h, ?_⟩
  intro i hi
  have hdef : b.get i =
      (match b.segments.lookup (i >>> 24) with
        | some seg =>
          decide ((seg.getD ((i &&& 0xFFFFFF) / 8) 0) &&&
            (1 <<< ((i &&& 0xFFFFFF) % 8)) ≠ 0)
        | none => false) := rfl
  rw [hdef, hi]

/-- Witness for C9 on a concrete two-segment bitmap. -/
theorem claim_C9_blob_roundtrip_witness :
    PortBitmap.from_blob (PortBitmap.to_blob ⟨[(0, [1, 2]), (300, [])]⟩) =
      some ⟨[(0, [1, 2]), (300, [])]⟩ :=
  (claim_C9_blob_roundtrip ⟨[(0, [1, 2]), (300, [])]⟩
    (by constructor <;> decide)).1

/-- Claim C10: `bulk_update_port_status` with an empty batch returns `Ok`
without modifying any table, and outcomes whose IP string does not parse as
IPv4 are silently skipped — the batch behaves exactly like the batch
restricted to its parseable entries, which is still committed. -/
theorem claim_C10_bulk_empty_and_skip (db : DB)
    (ups : List (String × Nat × Bool)) (r : Int) (t : Nat) :
    bulk_update_port_status db [] r t = some db ∧
    bulk_update_port_status db ups r t =
      bulk_update_port_status db
        (ups.filter (fun u => (ipv4_to_index u.1).isSome)) r t := by
  constructor
  · rfl
  · unfold bulk_update_port_status
    rw [groupByPort_filter_valid]
    by_cases h1 : ups.isEmpty
    · have h1' : ups = [] := by simpa using h1
      subst h1'
      rfl
    · rw [if_neg h1]
      by_cases h2 : (ups.filter (fun u => (ipv4_to_index u.1).isSome)).isEmpty
      · rw [if_pos h2]
        have h2' : ups.filter (fun u => (ipv4_to_index u.1).isSome) = [] := by
          simpa using h2
        have hg : groupByPort ups = [] := by
          rw [← groupByPort_filter_valid, h2']
          rfl
        rw [hg]
        rfl
      · rw [if_neg h2]

/-- Claim C3 counterexample: the comma-list branch of `parse_port_range`
returns the ports in input order without sorting (`"443,80"` parses to
`[443, 80]`) and without deduplication (`"80,80"` parses to `[80, 80]`); and
`"1-2-3"` — numeric, within `u16` range and not a reversed two-port range —
is rejected with `"Invalid port range format"`, so the claimed error
conditions are not exhaustive either. -/
theorem claim_C3_counterexample :
    parse_port_range "443,80" = Except.ok [443, 80] ∧
    ¬ List.Sorted (· ≤ ·) [443, 80] ∧
    parse_port_range "80,80" = Except.ok [80, 80] ∧
    ¬ List.Nodup [80, 80] ∧
    parse_port_range "1-2-3" = Except.error "Invalid port range format" := by
  refine ⟨rfl, by decide, rfl, by decide, rfl⟩

/-- Claim C3 (amended): `parse_port_range` accepts an inclusive dash range
(splitting on every `-`: exactly two parts parsing as `u16` values
`s ≤ e` give the sorted duplicate-free list `[s..e]`, a reversed range is an
error, any other dash shape is `"Invalid port range format"`), a comma list
(each item trimmed and parsed as `u16`, returned in input order, neither
sorted nor deduplicated), and a single port; single-port inputs that do not
parse as `u16` (non-numeric or above 65535) are errors. -/
theorem claim_C3_amended (range : String) (p0 p1 : List Char) (s e : Nat)
    (hdash : range.toList.contains '-' = true)
    (hsplit : splitOnChar '-' range.toList = [p0, p1])
    (hs : parseU16 p0 = some s) (he : parseU16 p1 = some e) :
    (s ≤ e → parse_port_range range = .ok (List.range' s (e - s + 1)) ∧
      List.Sorted (· < ·) (List.range' s (e - s + 1)) ∧
      (List.range' s (e - s + 1)).Nodup) ∧
    (e < s → parse_port_range range =
      .error "Start port must be less than or equal to end port") ∧
    (∀ r' : String, r'.toList.contains '-' = false →
      r'.toList.contains ',' = true →
      ∀ ps, (splitOnChar ',' r'.toList).mapM (fun x => parseU16 (trimChars x)) =
          some ps →
        parse_port_range r' = .ok ps) ∧
    (∀ r' : String, r'.toList.contains '-' = false →
      r'.toList.contains ',' = false →
      (∀ p, parseU16 r'.toList = some p → parse_port_range r' = .ok [p]) ∧
      (parseU16 r'.toList = none →
        parse_port_range r' = .error "Invalid port number")) := by
  refine ⟨?_, ?_, ?_, ?_⟩
  · intro hse
    refine ⟨?_, ?_, ?_⟩
    · simp only [parse_port_range, hdash, hsplit, hs, he, if_true]
      rw [if_neg (by omega)]
    · exact List.pairwise_lt_range' s (e - s + 1) 1 (by omega)
    · exact (List.pairwise_lt_range' s (e - s + 1) 1 (by omega)).imp
        (fun h => Nat.ne_of_lt h)
  · intro hes
    simp only [parse_port_range, hdash, hsplit, hs, he, if_true]
    rw [if_pos hes]
  · intro r' hnd hc ps hmapM
    simp only [parse_port_range, hnd, hc, Bool.false_eq_true, if_false, if_true]
    exact mapM_option_to_except _ ps hmapM
  · intro r' hnd hc
    constructor
    · intro p hp
      simp only [parse_port_range, hnd, hc, Bool.false_eq_true, if_false, hp]
    · intro hp
      simp only [parse_port_range, hnd, hc, Bool.false_eq_true, if_false, hp]

/-- Witness for the amended C3 on `"1-1024"` (and, through the universally
quantified conjuncts, `"22,80,443"` and `"8080"`). -/
theorem claim_C3_amended_witness :
    ("1-1024".toList.contains '-') = true ∧
    splitOnChar '-' "1-1024".toList = [['1'], ['1', '0', '2', '4']] ∧
    parseU16 ['1'] = some 1 ∧
    parseU16 ['1', '0', '2', '4'] = some 1024 ∧
    ((1 ≤ 1024 → parse_port_range "1-1024" = .ok (List.range' 1 (1024 - 1 + 1)) ∧
      List.Sorted (· < ·) (List.range' 1 (1024 - 1 + 1)) ∧
      (List.range' 1 (1024 - 1 + 1)).Nodup) ∧
    (1024 < 1 → parse_port_range "1-1024" =
      .error "Start port must be less than or equal to end port") ∧
    (∀ r' : String, r'.toList.contains '-' = false →
      r'.toList.contains ',' = true →
      ∀ ps, (splitOnChar ',' r'.toList).mapM (fun x => parseU16 (trimChars x)) =
          some ps →
        parse_port_range r' = .ok ps) ∧
    (∀ r' : String, r'.toList.contains '-' = false →
      r'.toList.contains ',' = false →
      (∀ p, parseU16 r'.toList = some p → parse_port_range r' = .ok [p]) ∧
      (parseU16 r'.toList = none →
        parse_port_range r' = .error "Invalid port number"))) :=
  ⟨rfl, rfl, rfl, rfl, claim_C3_amended "1-1024" ['1'] ['1', '0', '2', '4'] 1 1024
    rfl rfl rfl rfl⟩

/-- Claim C4 counterexample: one batch that observes 1.2.3.4:80 open and then
closed (same round, same batch) leaves an `open_ports_detail` row for
`("1.2.3.4", 80)` — the closed outcome clears the bitmap bit but deletes no
detail row — while no `port_bitmaps` row anywhere in the store has the bit of
ip-index 16909060 (= 1.2.3.4) set. -/
theorem claim_C4_counterexample :
    (applyTrace [DbOp.bulk [("1.2.3.4", 80, true), ("1.2.3.4", 80, false)] 1 5]
        emptyDB).open_ports_detail "1.2.3.4" 80 = some ⟨"IPv4", 1, 5, 5⟩ ∧
    ¬ ∃ (p : Nat) (r : Int) (row : BitmapRow) (B : PortBitmap),
        (applyTrace [DbOp.bulk [("1.2.3.4", 80, true), ("1.2.3.4", 80, false)] 1 5]
            emptyDB).port_bitmaps p r = some row ∧
        PortBitmap.from_blob row.bitmap = some B ∧
        B.get 16909060 = true := by
  constructor
  · rfl
  · rintro ⟨p, r, row, B, hrow, hparse, hbit⟩
    have hinv := rowInv_trace
      [DbOp.bulk [("1.2.3.4", 80, true), ("1.2.3.4", 80, false)] 1 5] p r
    rw [hrow] at hinv
    obtain ⟨B₀, hWF, hblob, _, hne, hbits⟩ := hinv
    rw [hblob, from_blob_to_blob B₀ hWF.blobWF] at hparse
    have hBB : B = B₀ := (Option.some.inj hparse).symm
    subst hBB
    have hb := hbits 16909060 (by norm_num)
    by_cases hpr : p = 80 ∧ r = 1
    · obtain ⟨rfl, rfl⟩ := hpr
      have hw : bitWrites
          [DbOp.bulk [("1.2.3.4", 80, true), ("1.2.3.4", 80, false)] 1 5]
          80 1 16909060 = [true, false] := rfl
      rw [hw] at hb
      have hfalse : (true : Bool) = false := hbit.symm.trans (hb.trans rfl)
      exact Bool.noConfusion hfalse
    · have htr : traceOutcomes
          [DbOp.bulk [("1.2.3.4", 80, true), ("1.2.3.4", 80, false)] 1 5] =
          [(16909060, 80, 1, true), (16909060, 80, 1, false)] := rfl
      have hcond : ¬ ((80 : Nat) = p ∧ (1 : Int) = r) :=
        fun hc => hpr ⟨hc.1.symm, hc.2.symm⟩
      have hpro : portRoundOutcomes
          [DbOp.bulk [("1.2.3.4", 80, true), ("1.2.3.4", 80, false)] 1 5] p r =
          [] := by
        unfold portRoundOutcomes
        rw [htr]
        simp [hcond]
      exact hne hpro

/-- Claim C4 (amended): whenever an `open_ports_detail` row exists for
`(ip, port)`, the ip parses and some batch recorded an open outcome for it;
and for every round in which the LAST write to this bit was an open one, a
`port_bitmaps` row exists whose deserialized bitmap has the bit set.  (The
unconditional form is false: a later closed outcome clears the bit but the
detail row remains — see the counterexample.) -/
theorem claim_C4_amended (ops : List DbOp) (ip : String) (port : Nat)
    (h : (applyTrace ops emptyDB).open_ports_detail ip port ≠ none) :
    (∃ idx r, ipv4_to_index ip = some idx ∧
      (idx, port, r, true) ∈ traceOutcomes ops) ∧
    (∀ idx r, ipv4_to_index ip = some idx →
      (bitWrites ops port r idx).getLast? = some true →
      ∃ row B, (applyTrace ops emptyDB).port_bitmaps port r = some row ∧
        PortBitmap.from_blob row.bitmap = some B ∧ B.get idx = true) := by
  constructor
  · exact detail_source_trace ops ip port h
  · intro idx r hparse hlast
    have hinv := rowInv_trace ops port r
    cases hrow : (applyTrace ops emptyDB).port_bitmaps port r with
    | none =>
      rw [hrow] at hinv
      have hpro : portRoundOutcomes ops port r = [] := hinv
      have hbw : bitWrites ops port r idx = [] :=
        bitWrites_of_outcomes_nil _ _ _ _ hpro
      rw [hbw] at hlast
      exact absurd hlast (by simp)
    | some row =>
      rw [hrow] at hinv
      obtain ⟨B₀, hWF, hblob, _, _, hbits⟩ := hinv
      refine ⟨row, B₀, rfl, ?_, ?_⟩
      · rw [hblob]
        exact from_blob_to_blob B₀ hWF.blobWF
      · have hg := hbits idx (ipv4_to_index_lt ip idx hparse)
        rw [hlast] at hg
        exact hg

/-- Witness for the amended C4: a single batch observing 1.2.3.4:80 open. -/
theorem claim_C4_amended_witness :
    ((applyTrace [DbOp.bulk [("1.2.3.4", 80, true)] 1 5]
        emptyDB).open_ports_detail "1.2.3.4" 80 ≠ none) ∧
    ((∃ idx r, ipv4_to_index "1.2.3.4" = some idx ∧
        (idx, 80, r, true) ∈
          traceOutcomes [DbOp.bulk [("1.2.3.4", 80, true)] 1 5]) ∧
      (∀ idx r, ipv4_to_index "1.2.3.4" = some idx →
        (bitWrites [DbOp.bulk [("1.2.3.4", 80, true)] 1 5] 80 r idx).getLast? =
          some true →
        ∃ row B, (applyTrace [DbOp.bulk [("1.2.3.4", 80, true)] 1 5]
            emptyDB).port_bitmaps 80 r = some row ∧
          PortBitmap.from_blob row.bitmap = some B ∧ B.get idx = true)) := by
  have hd : (applyTrace [DbOp.bulk [("1.2.3.4", 80, true)] 1 5]
      emptyDB).open_ports_detail "1.2.3.4" 80 = some ⟨"IPv4", 1, 5, 5⟩ := rfl
  have hne : (applyTrace [DbOp.bulk [("1.2.3.4", 80, true)] 1 5]
      emptyDB).open_ports_detail "1.2.3.4" 80 ≠ none := by
    rw [hd]
    exact fun hc => Option.noConfusion hc
  exact ⟨hne, claim_C4_amended _ "1.2.3.4" 80 hne⟩

/-- Claim C5: a re-observation upsert never modifies `first_seen` (only
`scan_round` and `last_seen` are updated), so over any write whose wall-clock
instant is not before the row's `last_seen`, `first_seen` is unchanged and
`last_seen` does not decrease; and on every row produced by a
time-monotone trace, `first_seen ≤ last_seen`. -/
theorem claim_C5_first_last_seen (db : DB) (op : DbOp) (ip : String) (p : Nat)
    (old : DetailRow) (hold : db.open_ports_detail ip p = some old)
    (hmono : old.last_seen ≤ opTime op)
    (ops : List DbOp) (hchain : List.Chain' (· ≤ ·) (0 :: ops.map opTime)) :
    (∀ nw, (applyOp db op).open_ports_detail ip p = some nw →
      nw.first_seen = old.first_seen ∧ old.last_seen ≤ nw.last_seen) ∧
    (∀ ip' p' row,
      (applyTrace ops emptyDB).open_ports_detail ip' p' = some row →
      row.first_seen ≤ row.last_seen) := by
  constructor
  · intro nw hnw
    rcases applyOp_detailStep db op ip p with heq | ⟨old', hmo, hmn⟩ | ⟨hmo, _⟩
    · rw [heq, hold] at hnw
      have hno : old = nw := Option.some.inj hnw
      subst hno
      exact ⟨rfl, le_refl _⟩
    · have hoo : old = old' := Option.some.inj (hold.symm.trans hmo)
      subst hoo
      rw [hmn] at hnw
      have hnn : _ = nw := Option.some.inj hnw
      subst hnn
      exact ⟨rfl, hmono⟩
    · exact absurd (hold.symm.trans hmo) (by simp)
  · intro ip' p' row hrow
    have hwf0 : DetailWF emptyDB.open_ports_detail 0 :=
      fun _ _ _ hc => Option.noConfusion hc
    have hwf := detail_trace_wf ops emptyDB 0 hwf0 hchain
    exact (hwf ip' p' row hrow).1

/-- Witness for C5: a store holding one detail row (first_seen = last_seen
= 5) hit by a write at instant 9, and the empty trace. -/
theorem claim_C5_first_last_seen_witness :
    (DB.mk (fun _ _ => none)
        (fun i p => if i = "1.2.3.4" ∧ p = 80 then some ⟨"IPv4", 1, 5, 5⟩
          else none)).open_ports_detail "1.2.3.4" 80 = some ⟨"IPv4", 1, 5, 5⟩ ∧
    (5 : Nat) ≤ opTime (DbOp.bulk [] 2 9) ∧
    List.Chain' (· ≤ ·) (0 :: List.map opTime []) ∧
    ((∀ nw, (applyOp (DB.mk (fun _ _ => none)
        (fun i p => if i = "1.2.3.4" ∧ p = 80 then some ⟨"IPv4", 1, 5, 5⟩
          else none)) (DbOp.bulk [] 2 9)).open_ports_detail "1.2.3.4" 80 =
          some nw →
      nw.first_seen = (5 : Nat) ∧ (5 : Nat) ≤ nw.last_seen) ∧
    (∀ ip' p' row,
      (applyTrace [] emptyDB).open_ports_detail ip' p' = some row →
      row.first_seen ≤ row.last_seen)) :=
  ⟨rfl, by decide, by simp,
    claim_C5_first_last_seen
      (DB.mk (fun _ _ => none)
        (fun i p => if i = "1.2.3.4" ∧ p = 80 then some ⟨"IPv4", 1, 5, 5⟩
          else none))
      (DbOp.bulk [] 2 9) "1.2.3.4" 80 ⟨"IPv4", 1, 5, 5⟩ rfl (by decide) []
      (by simp)⟩

/-- Claim C6: after any scan history, every stored `port_bitmaps` row has
`open_count` equal to the population count of its deserialized bitmap. -/
theorem claim_C6_open_count (ops : List DbOp) (port : Nat) (r : Int) :
    (match (applyTrace ops emptyDB).port_bitmaps port r with
      | some row => ∃ B, PortBitmap.from_blob row.bitmap = some B ∧
          row.open_count = B.count_ones
      | none => True) := by
  have hinv := rowInv_trace ops port r
  cases hrow : (applyTrace ops emptyDB).port_bitmaps port r with
  | none => exact trivial
  | some row =>
    rw [hrow] at hinv
    obtain ⟨B, hWF, hblob, hcnt, _, _⟩ := hinv
    show ∃ B, PortBitmap.from_blob row.bitmap = some B ∧
      row.open_count = B.count_ones
    refine ⟨B, ?_, hcnt⟩
    rw [hblob]
    exact from_blob_to_blob B hWF.blobWF

end IpScan
